import Mathlib

/-!
Shallow embedding of the heap-profile visualizer `hp.go`.

The embedded parts are: stack canonicalization (`CleanupStacks`), call-graph
construction (`graph.Analyze`), the size-label fraction of `state.SizeLabel`,
and the node/edge selection and emission of `state.GraphViz`.

Addresses are `Nat` (Go `uint64` values from the profile); cost fields are
`Nat` (Go `int` fields, non-negative for heap profiles per the data model).
Go maps are modelled either as association lists (`alookup`, newest entry
first, matching last-write-wins reads) or as total functions together with an
explicit key list recording which keys are present.
-/

/-- Association-list lookup modelling Go map reads. Entries are prepended on
write, so the first match is the most recent write. -/
def alookup {α β : Type} [DecidableEq α] (k : α) : List (α × β) → Option β
  | [] => none
  | (k2, v) :: l => if k = k2 then some v else alookup k l

/-- Modelled from the spec: the `Stats` cost record (declared outside
`src/hp.go`) is a small additive record of non-negative fields, at least
`InuseBytes` and, conceptually, `InuseObjects`. `hp.go` uses it only through
`Stats.Add` and the `InuseBytes` field. -/
structure Stats where
  inuseBytes : Nat
  inuseObjects : Nat
deriving DecidableEq

/-- Componentwise addition, modelling `Stats.Add`. -/
def Stats.add (s t : Stats) : Stats :=
  ⟨s.inuseBytes + t.inuseBytes, s.inuseObjects + t.inuseObjects⟩

/-- The zero cost record (Go zero value). -/
def Stats.zero : Stats := ⟨0, 0⟩

/-- Repeated addition of the same record, used to state occurrence-counted
accumulation results. -/
def Stats.nsmul (k : Nat) (s : Stats) : Stats := ⟨k * s.inuseBytes, k * s.inuseObjects⟩

/-- Modelled from the spec: a profile `Stack` (produced by the decoder, which
is outside `src/hp.go`) is an address sequence (field `Stack`) plus a `Stats`
cost record. `CleanupStacks` rewrites the address list in place; `Analyze`
reads both fields. -/
structure Stack where
  stack : List Nat
  stats : Stats
deriving DecidableEq

/-- `Node` from hp.go: canonical address, display name, exclusive (`cur`) and
inclusive (`cum`) cost. -/
structure Node where
  addr : Nat
  name : String
  cur : Stats
  cum : Stats
deriving DecidableEq

/-- `graph` from hp.go. `nodesF`/`nodeKeys` model the `nodes` map (function
value plus the set of present keys, in creation order); `edgesF`/`edgeKeys`
model the `edges` map likewise (absent keys read as weight 0, as a Go
`map[edge]int` does). `nodeSizes` is the derived sorted size list. -/
structure Graph where
  nodesF : Nat → Option Node
  nodeKeys : List Nat
  edgesF : Nat × Nat → Nat
  edgeKeys : List (Nat × Nat)
  nodeSizes : List Nat

/-- The empty graph, as constructed in `main` before `Analyze`. -/
def Graph.empty : Graph := ⟨fun _ => none, [], fun _ => 0, [], []⟩

/-- Fetch-or-create for the `nodes` map: `node := g.nodes[addr]; if node == nil
{ node = &Node{addr: addr, name: names[addr]}; g.nodes[addr] = node }`. A Go
map read of a missing key yields the zero string. -/
def Graph.getOrCreate (g : Graph) (names : List (Nat × String)) (addr : Nat) : Graph :=
  match g.nodesF addr with
  | some _ => g
  | none =>
    { g with
      nodesF := fun a =>
        if a = addr then some ⟨addr, (alookup addr names).getD "", Stats.zero, Stats.zero⟩
        else g.nodesF a,
      nodeKeys := g.nodeKeys ++ [addr] }

/-- `node.cur.Add(stack.Stats)` on the node stored at `addr`. -/
def Graph.addCur (g : Graph) (addr : Nat) (st : Stats) : Graph :=
  { g with
    nodesF := fun a =>
      if a = addr then (g.nodesF addr).map (fun n => { n with cur := n.cur.add st })
      else g.nodesF a }

/-- `node.cum.Add(stack.Stats)` on the node stored at `addr`. -/
def Graph.addCum (g : Graph) (addr : Nat) (st : Stats) : Graph :=
  { g with
    nodesF := fun a =>
      if a = addr then (g.nodesF addr).map (fun n => { n with cum := n.cum.add st })
      else g.nodesF a }

/-- `g.edges[edge{node, last}] += stack.Stats.InuseBytes`. Reading a missing
key yields 0; writing creates the key. -/
def Graph.addEdge (g : Graph) (e : Nat × Nat) (w : Nat) : Graph :=
  { g with
    edgesF := fun e2 => if e2 = e then g.edgesF e + w else g.edgesF e2,
    edgeKeys := if e ∈ g.edgeKeys then g.edgeKeys else g.edgeKeys ++ [e] }

/-- The inner loop of `graph.Analyze` over one stack's addresses. `last` holds
the address of the previously visited node (`last *Node`; only its address is
ever consulted, and nodes are unique per address). -/
def analyzeLoop (names : List (Nat × String)) (st : Stats) (g : Graph) (last : Option Nat) :
    List Nat → Graph
  | [] => g
  | addr :: rest =>
    if last = some addr then
      analyzeLoop names st g last rest
    else
      let g1 := g.getOrCreate names addr
      let g2 := match last with
        | none => g1.addCur addr st
        | some l => g1.addEdge (addr, l) st.inuseBytes
      let g3 := g2.addCum addr st
      analyzeLoop names st g3 (some addr) rest

/-- The outer loop of `graph.Analyze` over all stacks. -/
def analyzeStacks (names : List (Nat × String)) : List Stack → Graph → Graph
  | [], g => g
  | s :: rest, g => analyzeStacks names rest (analyzeLoop names s.stats g none s.stack)

/-- The cumulative `InuseBytes` stored for address `a`, 0 if no node exists. -/
def cumBytesAt (g : Graph) (a : Nat) : Nat :=
  match g.nodesF a with
  | some n => n.cum.inuseBytes
  | none => 0

/-- `graph.Analyze`: accumulate all stacks, then collect every node's positive
cumulative size, sort ascending (`sort.Ints`) and reverse to descending
order, storing the result in `NodeSizes`. -/
def Graph.analyze (g : Graph) (stks : List Stack) (names : List (Nat × String)) : Graph :=
  let g2 := analyzeStacks names stks g
  { g2 with
    nodeSizes :=
      (List.insertionSort (fun a b => a ≤ b)
        ((g2.nodeKeys.map (cumBytesAt g2)).filter (fun s => decide (0 < s)))).reverse }

/-- The state threaded through `CleanupStacks`: `addrs` maps a symbol name to
its canonical (first-seen) address, `names` maps a canonical address back to
its name. -/
structure CState where
  addrs : List (String × Nat)
  names : List (Nat × String)
deriving DecidableEq

/-- Per-address body of `CleanupStacks`: resolve the address; when resolved,
rewrite it to the first-seen representative of its name (registering it as
representative when the name is new) and record `names[addr] = name` for the
post-rewrite address. The symbol resolver `syms.Lookup` is modelled as a pure
function to an optional name. -/
def canonAddr (syms : Nat → Option String) (st : CState) (a : Nat) : Nat × CState :=
  match syms a with
  | none => (a, st)
  | some name =>
    match alookup name st.addrs with
    | some na => (na, { st with names := (na, name) :: st.names })
    | none =>
      (a, { addrs := (name, a) :: st.addrs, names := (a, name) :: st.names })

/-- The per-stack loop of `CleanupStacks`: canonicalize each address, then
drop it when it equals `last` (`var last uint64` starts at 0), otherwise
append it to the new stack and update `last`. -/
def cleanLoop (syms : Nat → Option String) (st : CState) (last : Nat) :
    List Nat → List Nat × CState
  | [] => ([], st)
  | a :: rest =>
    let p := canonAddr syms st a
    if p.1 = last then cleanLoop syms p.2 last rest
    else
      let q := cleanLoop syms p.2 p.1 rest
      (p.1 :: q.1, q.2)

/-- The outer loop of `CleanupStacks` over all stacks (each stack's address
list is rewritten in place; its `Stats` are untouched). -/
def cleanupGo (syms : Nat → Option String) (st : CState) : List Stack → List Stack × CState
  | [] => ([], st)
  | s :: rest =>
    let p := cleanLoop syms st 0 s.stack
    let q := cleanupGo syms p.2 rest
    ({ s with stack := p.1 } :: q.1, q.2)

/-- `CleanupStacks`: canonicalize all stacks starting from empty maps, and
return the rewritten stacks together with the `names` map. -/
def CleanupStacks (syms : Nat → Option String) (stks : List Stack) : List Stack × CState :=
  cleanupGo syms ⟨[], []⟩ stks

/-- Adjacent-duplicate collapse as performed by `Analyze`'s skip test, used to
state occurrence-counted accumulation: an element equal to the previously
retained element is dropped. -/
def collapseFrom (last : Option Nat) : List Nat → List Nat
  | [] => []
  | a :: rest => if last = some a then collapseFrom last rest else a :: collapseFrom (some a) rest

/-- Result of a Go `float32` division as far as the embedded claims need it:
by IEEE-754 (which Go follows exactly), `x / 0` is NaN when `x = 0` and `+Inf`
when `x > 0`; a division by a nonzero denominator is a finite number, here
idealized as the exact rational (rounding is immaterial to the claims). -/
inductive F32 where
  | finite : ℚ → F32
  | posInf : F32
  | nan : F32
deriving DecidableEq

/-- `float32(a) / float32(b)` for non-negative integer operands. -/
def f32div (a b : Nat) : F32 :=
  if b = 0 then (if a = 0 then F32.nan else F32.posInf) else F32.finite ((a : ℚ) / (b : ℚ))

/-- The fraction computed by `state.SizeLabel`:
`frac := float32(cum) / float32(s.Profile.Header.InuseBytes)`, with no guard
on the denominator. `total` is the profile-wide header total. -/
def sizeLabelFrac (cum total : Nat) : F32 := f32div cum total

/-- The node-selection threshold of `state.GraphViz`:
`if NodeKeepCount < len(NodeSizes) { t = NodeSizes[NodeKeepCount] }`, else 0.
This is exactly `List.getD`. -/
def gvThreshold (g : Graph) (keep : Nat) : Nat := g.nodeSizes.getD keep 0

/-- All nodes of the graph, in creation order (the Go map iteration order is
unspecified; no claim depends on more than the set of nodes). -/
def Graph.allNodes (g : Graph) : List Node := g.nodeKeys.filterMap g.nodesF

/-- Node selection of `state.GraphViz`: keep every node whose cumulative
`InuseBytes` is at least the threshold. -/
def gvKept (g : Graph) (keep : Nat) : List Node :=
  g.allNodes.filter (fun n => decide (gvThreshold g keep ≤ n.cum.inuseBytes))

/-- Whether the node stored at address `a` is kept (`keptNodes[e.src]`). -/
def gvIsKept (g : Graph) (keep : Nat) (a : Nat) : Bool :=
  match g.nodesF a with
  | some n => decide (gvThreshold g keep ≤ n.cum.inuseBytes)
  | none => false

/-- Edge candidates: edges both of whose endpoints are kept. -/
def gvEdgeCandidates (g : Graph) (keep : Nat) : List (Nat × Nat) :=
  g.edgeKeys.filter (fun e => gvIsKept g keep e.1 && gvIsKept g keep e.2)

/-- Candidates sorted by weight descending (`Sort(edgelist, -weight)`). -/
def gvSortedEdges (g : Graph) (keep : Nat) : List (Nat × Nat) :=
  List.insertionSort (fun e1 e2 => g.edgesF e2 ≤ g.edgesF e1) (gvEdgeCandidates g keep)

/-- The running state of the edge-emission loop: the emitted edges, and the
`indegree`/`outdegree` maps over node addresses. -/
structure EmitState where
  emitted : List (Nat × Nat)
  indeg : Nat → Nat
  outdeg : Nat → Nat

/-- Edge emission of `state.GraphViz`: an edge is emitted when its destination
has no inbound edge yet (the first edge per destination is forced in), or when
its weight in KiB is at least 30; emitting bumps both degree counters. -/
def gvEmitEdges (g : Graph) : List (Nat × Nat) → EmitState → EmitState
  | [], st => st
  | e :: rest, st =>
    if st.indeg e.2 = 0 ∨ 30 ≤ g.edgesF e / 1024 then
      gvEmitEdges g rest
        ⟨st.emitted ++ [e],
         fun a => if a = e.2 then st.indeg a + 1 else st.indeg a,
         fun a => if a = e.1 then st.outdeg a + 1 else st.outdeg a⟩
    else gvEmitEdges g rest st

/-- Node emission of `state.GraphViz` over the kept nodes: a kept node with
zero in- and out-degree is not rendered and its cumulative size is added to
the `missing` total; otherwise the node is emitted and its exclusive size is
added to the `total` counter. Returns (emitted nodes, total, missing). -/
def gvEmitNodes (st : EmitState) : List Node → List Node × Nat × Nat
  | [] => ([], 0, 0)
  | n :: rest =>
    let r := gvEmitNodes st rest
    if st.indeg n.addr = 0 ∧ st.outdeg n.addr = 0 then
      (r.1, r.2.1, r.2.2 + n.cum.inuseBytes)
    else (n :: r.1, r.2.1 + n.cur.inuseBytes, r.2.2)

/-- The full rendering pipeline: emitted edges with final degree maps, and the
emitted-node pass. -/
def gvRender (g : Graph) (keep : Nat) : EmitState × (List Node × Nat × Nat) :=
  let st := gvEmitEdges g (gvSortedEdges g keep) ⟨[], fun _ => 0, fun _ => 0⟩
  (st, gvEmitNodes st (gvKept g keep))

/-- The node-selection threshold as the spec sentence words it (for comparison
with `gvThreshold`): the `NodeKeepCount`-th largest value (1-based ordinal) in
the sorted node-size list, or 0 when fewer nodes exist than the keep count. -/
def specKthLargestThreshold (g : Graph) (keep : Nat) : Nat :=
  if g.nodeSizes.length < keep then 0 else g.nodeSizes.getD (keep - 1) 0

/-- The exclusive cost stored for address `a`, zero if no node exists. -/
def curStatsAt (g : Graph) (a : Nat) : Stats :=
  match g.nodesF a with
  | some n => n.cur
  | none => Stats.zero

/-- The inclusive cost stored for address `a`, zero if no node exists. -/
def cumStatsAt (g : Graph) (a : Nat) : Stats :=
  match g.nodesF a with
  | some n => n.cum
  | none => Stats.zero

/-- Sum of a list of cost records. -/
def sumStats : List Stats → Stats
  | [] => Stats.zero
  | s :: l => s.add (sumStats l)

/-- Sum of the exclusive costs over all nodes of the graph. -/
def Graph.sumCur (g : Graph) : Stats := sumStats (g.nodeKeys.map (curStatsAt g))

/-- Total cost of a list of stacks. -/
def stacksTotal (l : List Stack) : Stats := sumStats (l.map Stack.stats)

/-- The inclusive cost `Analyze` attributes to address `x`: for each stack,
its cost times the number of occurrences of `x` in the stack after
adjacent-duplicate collapse. -/
def stacksCumFor (x : Nat) : List Stack → Stats
  | [] => Stats.zero
  | s :: rest =>
    (Stats.nsmul ((collapseFrom none s.stack).count x) s.stats).add (stacksCumFor x rest)

/-- Well-formedness of the node map: a node exists exactly for the recorded
keys. Holds for the empty graph and is preserved by `Analyze`. -/
def KeysOK (g : Graph) : Prop := ∀ a, (g.nodesF a).isSome ↔ a ∈ g.nodeKeys

/-- Every node has exclusive cost at most inclusive cost, in both fields. -/
def CurLeCum (g : Graph) : Prop :=
  ∀ a n, g.nodesF a = some n →
    n.cur.inuseBytes ≤ n.cum.inuseBytes ∧ n.cur.inuseObjects ≤ n.cum.inuseObjects

/-- Combined structural invariant of the node table. -/
def GInv (g : Graph) : Prop := KeysOK g ∧ g.nodeKeys.Nodup

/-- Every node carries the display name assigned at creation: the `names`
map entry for its address, or the empty string when absent. -/
def NodeNamesOK (names : List (Nat × String)) (g : Graph) : Prop :=
  ∀ a n, g.nodesF a = some n → n.name = (alookup a names).getD ""

/-- Invariants of the canonicalization state: registered representatives
resolve back to their own name, and every `names` entry resolves to its
recorded name and is the registered representative of that name. -/
structure CGood (syms : Nat → Option String) (st : CState) : Prop where
  addrsRes : ∀ n a, alookup n st.addrs = some a → syms a = some n
  namesRes : ∀ k v, (k, v) ∈ st.names → syms k = some v
  namesCanon : ∀ k v, (k, v) ∈ st.names → alookup v st.addrs = some k

/-- The `addrs` map only grows (a registered representative is never
overwritten). -/
def AddrsLe (st st2 : CState) : Prop :=
  ∀ n a, alookup n st.addrs = some a → alookup n st2.addrs = some a

/-- The `names` map only grows (entries are prepended, never removed). -/
def NamesLe (st st2 : CState) : Prop :=
  ∀ k v, (k, v) ∈ st.names → (k, v) ∈ st2.names

/-- Every address of `l` that resolves to a name is the address that the
`addrs` map `A` registers for that name. -/
def CanonList (syms : Nat → Option String) (A : List (String × Nat)) (l : List Nat) : Prop :=
  ∀ b ∈ l, ∀ n, syms b = some n → alookup n A = some b

/-- The three-stack scenario from the spec: `[A,B]` cost 100, `[A,B]` cost 50,
`[A,C]` cost 10, with A = 1, B = 2, C = 3. -/
def scenarioStacks : List Stack := [⟨[1, 2], ⟨100, 0⟩⟩, ⟨[1, 2], ⟨50, 0⟩⟩, ⟨[1, 3], ⟨10, 0⟩⟩]

/-- The graph `Analyze` builds from the scenario stacks. -/
def scenarioGraph : Graph := Graph.empty.analyze scenarioStacks []

/-- A resolver that resolves only address 0, to name `f`. -/
def zsyms : Nat → Option String := fun a => if a = 0 then some "f" else none

/-- A single stack whose only frame is address 0. -/
def zstks : List Stack := [⟨[0], ⟨5, 0⟩⟩]

/-- A resolver mapping the two distinct addresses 0 and 7 to the same name. -/
def csyms : Nat → Option String :=
  fun a => if a = 0 then some "f" else if a = 7 then some "f" else none

/-- A resolver mapping the two distinct addresses 4 and 7 to the same name
(and nothing else), used for witnesses. -/
def wsyms : Nat → Option String :=
  fun a => if a = 4 then some "g" else if a = 7 then some "g" else none

/-- Witness stacks for the canonicalization claims. -/
def wstks : List Stack := [⟨[4, 9], ⟨5, 0⟩⟩, ⟨[7, 9, 7], ⟨3, 0⟩⟩]

/-! ### Basic evaluation results for the concrete scenarios -/

/-- C1: the claim as stated is false on the code: in the graph built from the
three scenario stacks, node A (= address 1) has exclusive cost 160, not 0 —
`Analyze` attributes a stack's cost (`cur`) to the first frame of the stack,
which in `[A,B]` and `[A,C]` is A. -/
theorem c1_counterexample :
    (scenarioGraph.nodesF 1).map (fun n => n.cur.inuseBytes) = some 160 ∧
      (some 160 : Option Nat) ≠ some 0 := by
  constructor
  · rfl
  · decide

/-- C1 (amended): for the three canonicalized stacks `[A,B]` cost 100,
`[A,B]` cost 50, `[A,C]` cost 10 (A=1, B=2, C=3), `Analyze` yields nodes
A(cur=160, cum=160), B(cur=0, cum=150), C(cur=0, cum=10) — the exclusive cost
goes to the first-listed frame A — and edge weights B→A = 150 and C→A = 10,
with exactly the node set \x7bA, B, C\x7d and the edge set \x7bB→A, C→A\x7d. -/
theorem c1_amended :
    scenarioGraph.nodesF 1 = some ⟨1, "", ⟨160, 0⟩, ⟨160, 0⟩⟩ ∧
    scenarioGraph.nodesF 2 = some ⟨2, "", ⟨0, 0⟩, ⟨150, 0⟩⟩ ∧
    scenarioGraph.nodesF 3 = some ⟨3, "", ⟨0, 0⟩, ⟨10, 0⟩⟩ ∧
    scenarioGraph.nodeKeys = [1, 2, 3] ∧
    scenarioGraph.edgesF (2, 1) = 150 ∧
    scenarioGraph.edgesF (3, 1) = 10 ∧
    scenarioGraph.edgeKeys = [(2, 1), (3, 1)] := by
  refine ⟨rfl, rfl, rfl, rfl, rfl, rfl, rfl⟩

/-- C8: with `NodeKeepCount = 1` on the scenario graph (cumulative sizes
160, 150, 10), `GraphViz` computes threshold 150 and keeps exactly the nodes
with cumulative size ≥ 150 — the 160 node and the 150 node — excluding the
10 node. -/
theorem c8_kept_nodes :
    gvThreshold scenarioGraph 1 = 150 ∧
      (gvKept scenarioGraph 1).map (fun n => (n.addr, n.cum.inuseBytes)) = [(1, 160), (2, 150)] := by
  refine ⟨rfl, rfl⟩

/-- C4: the division in `SizeLabel` is not guarded: with a profile-wide total
of 0, `float32(cum) / float32(total)` is `+Inf` for a node with positive
cumulative size (and `NaN` for a zero one), which `fmt` renders as a
non-numeric percentage — not the 0.0% the spec requires. -/
theorem c4_unguarded_division :
    sizeLabelFrac 100 0 = F32.posInf ∧
    sizeLabelFrac 0 0 = F32.nan ∧
    F32.posInf ≠ F32.finite 0 ∧ F32.nan ≠ F32.finite 0 := by
  refine ⟨rfl, rfl, by decide, by decide⟩

/-- C2: the claim as stated is false on the code: a stack with an empty
address list contributes its cost to no node, so for the input consisting of
one empty stack of cost 5 the sum of exclusive costs is 0 while the total
input cost is 5. -/
theorem c2_counterexample :
    (Graph.empty.analyze [⟨[], ⟨5, 0⟩⟩] []).sumCur = Stats.zero ∧
    stacksTotal [⟨[], ⟨5, 0⟩⟩] = ⟨5, 0⟩ ∧
    (Stats.zero : Stats) ≠ ⟨5, 0⟩ := by
  refine ⟨rfl, rfl, by decide⟩

/-- C3: the claim as stated is false on the code: on the scenario graph with
`NodeKeepCount = 1` the 1st-largest (1-based) node size is 160, but the code
uses the entry at index 1 of the descending list, 150, and keeps the node of
cumulative size 150 even though 150 is below the spec-worded threshold. -/
theorem c3_counterexample :
    specKthLargestThreshold scenarioGraph 1 = 160 ∧
    gvThreshold scenarioGraph 1 = 150 ∧
    (gvKept scenarioGraph 1).map (fun n => n.cum.inuseBytes) = [160, 150] ∧
    ¬ (160 ≤ 150) := by
  refine ⟨rfl, rfl, rfl, by decide⟩

/-- C5: the claim as stated is false on the code: for the single stack
`[1, 2, 1]` of cost 10, node 1 occurs at two non-adjacent positions and
`Analyze` adds the stack's cost to its inclusive total once per occurrence,
giving cum = 20, not 10. -/
theorem c5_counterexample :
    cumBytesAt (Graph.empty.analyze [⟨[1, 2, 1], ⟨10, 0⟩⟩] []) 1 = 20 ∧ 20 ≠ 10 := by
  refine ⟨rfl, by decide⟩

/-- C7: the claim as stated is false on the code: with a resolver that
resolves address 0 (to name `f`) and the single stack `[0]`, the first run
records `names[0] = f` but deletes the lone frame 0 (the duplicate tracker
starts at 0), so the second run sees no occurrence of the name and returns a
mapping with no entry for 0. -/
theorem c7_counterexample :
    alookup 0 (CleanupStacks zsyms ((CleanupStacks zsyms zstks).1)).2.names = none ∧
    alookup 0 (CleanupStacks zsyms zstks).2.names = some "f" ∧
    (none : Option String) ≠ some "f" := by
  refine ⟨rfl, rfl, by decide⟩

/-- C6: the claim as stated is false on the code: addresses 0 and 7 are
distinct and both resolve to name `f`, address 0 occurs in the input, yet the
graph built from the canonicalized stacks contains no node whose address
resolves to `f` (rather than exactly one): the representative is 0 and its
only occurrence is deleted by the duplicate tracker, which starts at 0. -/
theorem c6_counterexample :
    csyms 0 = some "f" ∧ csyms 7 = some "f" ∧ (0 : Nat) ≠ 7 ∧
    (0 : Nat) ∈ (⟨[0], ⟨5, 0⟩⟩ : Stack).stack ∧
    ((Graph.empty.analyze (CleanupStacks csyms [⟨[0], ⟨5, 0⟩⟩]).1
        (CleanupStacks csyms [⟨[0], ⟨5, 0⟩⟩]).2.names).nodeKeys.countP
      (fun a => csyms a == some "f")) = 0 := by
  refine ⟨rfl, rfl, by decide, by decide, rfl⟩

/-! ### C10: the zero-initialized duplicate tracker -/

/-- C10: because `last` is initialized to 0, a stack whose first address
canonicalizes to 0 loses that leading address (processing continues on the
tail as if the stack began there, after the map updates for the dropped
address), while a stack whose first address canonicalizes to a non-zero
address keeps it as the first frame of the output. -/
theorem c10_zero_tracker (syms : Nat → Option String) (st : CState) (a : Nat) (rest : List Nat) :
    ((canonAddr syms st a).1 = 0 →
      cleanLoop syms st 0 (a :: rest) = cleanLoop syms (canonAddr syms st a).2 0 rest) ∧
    ((canonAddr syms st a).1 ≠ 0 →
      (cleanLoop syms st 0 (a :: rest)).1.head? = some (canonAddr syms st a).1) := by
  constructor
  · intro h
    simp [cleanLoop, h]
  · intro h
    simp [cleanLoop, h]

/-- Witness for C10 at concrete inputs: with no resolver, the stack `[0, 5]`
loses its leading 0, and the stack `[7, 5]` keeps 7 as its first frame. -/
theorem c10_zero_tracker_witness :
    ((canonAddr (fun _ => none) ⟨[], []⟩ 0).1 = 0 ∧
      cleanLoop (fun _ => none) ⟨[], []⟩ 0 [0, 5] =
        cleanLoop (fun _ => none) (canonAddr (fun _ => none) ⟨[], []⟩ 0).2 0 [5]) ∧
    ((canonAddr (fun _ => none) ⟨[], []⟩ 7).1 ≠ 0 ∧
      (cleanLoop (fun _ => none) ⟨[], []⟩ 0 [7, 5]).1.head? =
        some (canonAddr (fun _ => none) ⟨[], []⟩ 7).1) := by
  refine ⟨⟨rfl, (c10_zero_tracker (fun _ => none) ⟨[], []⟩ 0 [5]).1 rfl⟩,
    ⟨by decide, (c10_zero_tracker (fun _ => none) ⟨[], []⟩ 7 [5]).2 (by decide)⟩⟩

/-! ### Cost-record algebra -/

theorem Stats.add_zero (s : Stats) : s.add Stats.zero = s := by
  cases s; simp [Stats.add, Stats.zero]

theorem Stats.zero_add (s : Stats) : Stats.zero.add s = s := by
  cases s; simp [Stats.add, Stats.zero]

theorem Stats.add_assoc (s t u : Stats) : (s.add t).add u = s.add (t.add u) := by
  cases s; cases t; cases u; simp [Stats.add]; omega

theorem Stats.add_comm (s t : Stats) : s.add t = t.add s := by
  cases s; cases t; simp [Stats.add]; omega

theorem Stats.nsmul_zero (s : Stats) : Stats.nsmul 0 s = Stats.zero := by
  cases s; simp [Stats.nsmul, Stats.zero]

theorem Stats.nsmul_succ (k : Nat) (s : Stats) :
    Stats.nsmul (k + 1) s = (Stats.nsmul k s).add s := by
  cases s; simp [Stats.nsmul, Stats.add]; constructor <;> ring

theorem sumStats_append (l1 l2 : List Stats) :
    sumStats (l1 ++ l2) = (sumStats l1).add (sumStats l2) := by
  induction l1 with
  | nil => simp [sumStats, Stats.zero_add]
  | cons s l ih => simp [sumStats, ih, Stats.add_assoc]

/-- Updating one key of a node-valued function by adding `d`, with all other
keys unchanged, adds `d` to the sum over a duplicate-free key list containing
that key. -/
theorem sumStats_map_update {l : List Nat} (hn : l.Nodup) {a : Nat} (ha : a ∈ l)
    (f f2 : Nat → Stats) (d : Stats) (hfa : f2 a = (f a).add d)
    (hfb : ∀ b, b ≠ a → f2 b = f b) :
    sumStats (l.map f2) = (sumStats (l.map f)).add d := by
  induction l with
  | nil => cases ha
  | cons x xs ih =>
    rcases List.mem_cons.mp ha with h | h
    · subst h
      have hxs : xs.map f2 = xs.map f := by
        apply List.map_congr_left
        intro b hb
        exact hfb b (fun hba => (List.nodup_cons.mp hn).1 (hba ▸ hb))
      simp only [List.map_cons, sumStats, hfa, hxs]
      rw [Stats.add_assoc, Stats.add_assoc, Stats.add_comm d]
    · have hxa : x ≠ a := fun hxa => (List.nodup_cons.mp hn).1 (hxa ▸ h)
      simp only [List.map_cons, sumStats, hfb x hxa,
        ih (List.nodup_cons.mp hn).2 h]
      rw [Stats.add_assoc]

/-! ### Pointwise effects of the `Analyze` operations -/

theorem getOrCreate_of_some {g : Graph} {addr : Nat} {n : Node} (names : List (Nat × String))
    (h : g.nodesF addr = some n) : g.getOrCreate names addr = g := by
  simp [Graph.getOrCreate, h]

theorem getOrCreate_of_none {g : Graph} {addr : Nat} (names : List (Nat × String))
    (h : g.nodesF addr = none) :
    g.getOrCreate names addr =
      { g with
        nodesF := fun a =>
          if a = addr then some ⟨addr, (alookup addr names).getD "", Stats.zero, Stats.zero⟩
          else g.nodesF a,
        nodeKeys := g.nodeKeys ++ [addr] } := by
  simp [Graph.getOrCreate, h]

theorem getOrCreate_nodesF_ne {g : Graph} (names : List (Nat × String)) {addr b : Nat}
    (hb : b ≠ addr) : (g.getOrCreate names addr).nodesF b = g.nodesF b := by
  cases h : g.nodesF addr with
  | some n => rw [getOrCreate_of_some names h]
  | none => rw [getOrCreate_of_none names h]; simp [hb]

theorem getOrCreate_isSome {g : Graph} (names : List (Nat × String)) (addr : Nat) :
    ((g.getOrCreate names addr).nodesF addr).isSome := by
  cases h : g.nodesF addr with
  | some n => rw [getOrCreate_of_some names h, h]; rfl
  | none => rw [getOrCreate_of_none names h]; simp

theorem getOrCreate_isSome_iff {g : Graph} (names : List (Nat × String)) (addr b : Nat) :
    ((g.getOrCreate names addr).nodesF b).isSome ↔ ((g.nodesF b).isSome ∨ b = addr) := by
  cases h : g.nodesF addr with
  | some n =>
    rw [getOrCreate_of_some names h]
    constructor
    · exact fun hs => Or.inl hs
    · rintro (hs | rfl)
      · exact hs
      · rw [h]; rfl
  | none =>
    rw [getOrCreate_of_none names h]
    by_cases hb : b = addr <;> simp [hb, h]

theorem keysOK_getOrCreate {g : Graph} (names : List (Nat × String)) (addr : Nat)
    (hk : KeysOK g) : KeysOK (g.getOrCreate names addr) := by
  intro b
  rw [getOrCreate_isSome_iff]
  cases h : g.nodesF addr with
  | some n =>
    rw [getOrCreate_of_some names h]
    constructor
    · rintro (hs | rfl)
      · exact (hk b).mp hs
      · exact (hk b).mp (by rw [h]; rfl)
    · exact fun hm => Or.inl ((hk b).mpr hm)
  | none =>
    rw [getOrCreate_of_none names h]
    simp only [List.mem_append, List.mem_singleton]
    constructor
    · rintro (hs | rfl)
      · exact Or.inl ((hk b).mp hs)
      · exact Or.inr rfl
    · rintro (hm | rfl)
      · exact Or.inl ((hk b).mpr hm)
      · exact Or.inr rfl

theorem nodeKeys_getOrCreate_nodup {g : Graph} (names : List (Nat × String)) (addr : Nat)
    (hk : KeysOK g) (hn : g.nodeKeys.Nodup) : (g.getOrCreate names addr).nodeKeys.Nodup := by
  cases h : g.nodesF addr with
  | some n => rw [getOrCreate_of_some names h]; exact hn
  | none =>
    rw [getOrCreate_of_none names h]
    refine List.nodup_append.mpr ⟨hn, List.nodup_singleton _, ?_⟩
    intro b hb hba
    rw [List.mem_singleton] at hba
    subst hba
    have := (hk b).mpr hb
    rw [h] at this
    exact absurd this (by simp)

theorem ginv_getOrCreate {g : Graph} (names : List (Nat × String)) (addr : Nat)
    (hg : GInv g) : GInv (g.getOrCreate names addr) :=
  ⟨keysOK_getOrCreate names addr hg.1, nodeKeys_getOrCreate_nodup names addr hg.1 hg.2⟩

theorem addCur_nodesF (g : Graph) (addr : Nat) (st : Stats) (b : Nat) :
    (g.addCur addr st).nodesF b =
      if b = addr then (g.nodesF addr).map (fun n => { n with cur := n.cur.add st })
      else g.nodesF b := rfl

theorem addCum_nodesF (g : Graph) (addr : Nat) (st : Stats) (b : Nat) :
    (g.addCum addr st).nodesF b =
      if b = addr then (g.nodesF addr).map (fun n => { n with cum := n.cum.add st })
      else g.nodesF b := rfl

theorem ginv_addCur {g : Graph} (addr : Nat) (st : Stats) (hg : GInv g) :
    GInv (g.addCur addr st) := by
  refine ⟨fun b => ?_, hg.2⟩
  rw [show (g.addCur addr st).nodeKeys = g.nodeKeys from rfl]
  rw [addCur_nodesF]
  by_cases hb : b = addr
  · subst hb
    simp only [if_pos rfl, if_true, eq_self_iff_true]
    cases h : g.nodesF b <;> simpa [h] using hg.1 b
  · rw [if_neg hb]; exact hg.1 b

theorem ginv_addCum {g : Graph} (addr : Nat) (st : Stats) (hg : GInv g) :
    GInv (g.addCum addr st) := by
  refine ⟨fun b => ?_, hg.2⟩
  rw [show (g.addCum addr st).nodeKeys = g.nodeKeys from rfl]
  rw [addCum_nodesF]
  by_cases hb : b = addr
  · subst hb
    simp only [if_pos rfl, if_true, eq_self_iff_true]
    cases h : g.nodesF b <;> simpa [h] using hg.1 b
  · rw [if_neg hb]; exact hg.1 b

theorem ginv_addEdge {g : Graph} (e : Nat × Nat) (w : Nat) (hg : GInv g) :
    GInv (g.addEdge e w) := hg

/-! ### Exclusive-cost sums under the `Analyze` operations -/

theorem sumCur_addEdge (g : Graph) (e : Nat × Nat) (w : Nat) :
    (g.addEdge e w).sumCur = g.sumCur := rfl

theorem curStatsAt_addCum (g : Graph) (addr : Nat) (st : Stats) (b : Nat) :
    curStatsAt (g.addCum addr st) b = curStatsAt g b := by
  unfold curStatsAt
  rw [addCum_nodesF]
  by_cases hb : b = addr
  · subst hb
    rw [if_pos rfl]
    cases g.nodesF b <;> rfl
  · rw [if_neg hb]

theorem sumCur_addCum (g : Graph) (addr : Nat) (st : Stats) :
    (g.addCum addr st).sumCur = g.sumCur := by
  unfold Graph.sumCur
  rw [show (g.addCum addr st).nodeKeys = g.nodeKeys from rfl]
  congr 1
  apply List.map_congr_left
  intro b _
  exact curStatsAt_addCum g addr st b

theorem curStatsAt_addCur_self (g : Graph) (addr : Nat) (st : Stats)
    (h : (g.nodesF addr).isSome) :
    curStatsAt (g.addCur addr st) addr = (curStatsAt g addr).add st := by
  unfold curStatsAt
  rw [addCur_nodesF, if_pos rfl]
  obtain ⟨n, hn⟩ := Option.isSome_iff_exists.mp h
  rw [hn]
  rfl

theorem curStatsAt_addCur_ne (g : Graph) (addr : Nat) (st : Stats) (b : Nat) (hb : b ≠ addr) :
    curStatsAt (g.addCur addr st) b = curStatsAt g b := by
  unfold curStatsAt
  rw [addCur_nodesF, if_neg hb]

theorem sumCur_addCur (g : Graph) (addr : Nat) (st : Stats) (hg : GInv g)
    (h : (g.nodesF addr).isSome) :
    (g.addCur addr st).sumCur = g.sumCur.add st := by
  unfold Graph.sumCur
  rw [show (g.addCur addr st).nodeKeys = g.nodeKeys from rfl]
  exact sumStats_map_update hg.2 ((hg.1 addr).mp h) (curStatsAt g)
    (curStatsAt (g.addCur addr st)) st (curStatsAt_addCur_self g addr st h)
    (fun b hb => curStatsAt_addCur_ne g addr st b hb)

theorem curStatsAt_getOrCreate_self_none (names : List (Nat × String)) (g : Graph) (addr : Nat)
    (h : g.nodesF addr = none) :
    curStatsAt (g.getOrCreate names addr) addr = Stats.zero := by
  rw [getOrCreate_of_none names h]
  unfold curStatsAt
  simp

theorem sumCur_getOrCreate (names : List (Nat × String)) (g : Graph) (addr : Nat)
    (hg : GInv g) : (g.getOrCreate names addr).sumCur = g.sumCur := by
  cases h : g.nodesF addr with
  | some n => rw [getOrCreate_of_some names h]
  | none =>
    have hmem : addr ∉ g.nodeKeys := by
      intro hm
      have := (hg.1 addr).mpr hm
      rw [h] at this
      exact absurd this (by simp)
    unfold Graph.sumCur
    rw [show (g.getOrCreate names addr).nodeKeys =
          (if (g.nodesF addr).isSome then g.nodeKeys else g.nodeKeys ++ [addr]) from by
        rw [getOrCreate_of_none names h]; simp [h]]
    rw [h]
    simp only [Option.isSome_none, Bool.false_eq_true, if_false]
    rw [List.map_append, sumStats_append]
    have h1 : g.nodeKeys.map (curStatsAt (g.getOrCreate names addr)) =
        g.nodeKeys.map (curStatsAt g) := by
      apply List.map_congr_left
      intro b hb
      have hbne : b ≠ addr := fun hba => hmem (hba ▸ hb)
      unfold curStatsAt
      rw [getOrCreate_nodesF_ne names hbne]
    have h2 : curStatsAt (g.getOrCreate names addr) addr = Stats.zero :=
      curStatsAt_getOrCreate_self_none names g addr h
    rw [h1]
    simp [sumStats, h2, Stats.add_zero]

/-! ### Unfolding equations for the `Analyze` loop -/

theorem analyzeLoop_nil (names : List (Nat × String)) (st : Stats) (g : Graph)
    (last : Option Nat) : analyzeLoop names st g last [] = g := rfl

theorem analyzeLoop_cons_skip (names : List (Nat × String)) (st : Stats) (g : Graph)
    (l addr : Nat) (rest : List Nat) (h : l = addr) :
    analyzeLoop names st g (some l) (addr :: rest) = analyzeLoop names st g (some l) rest := by
  simp [analyzeLoop, h]

theorem analyzeLoop_cons_edge (names : List (Nat × String)) (st : Stats) (g : Graph)
    (l addr : Nat) (rest : List Nat) (h : l ≠ addr) :
    analyzeLoop names st g (some l) (addr :: rest) =
      analyzeLoop names st
        (((g.getOrCreate names addr).addEdge (addr, l) st.inuseBytes).addCum addr st)
        (some addr) rest := by
  simp [analyzeLoop, h]

theorem analyzeLoop_cons_first (names : List (Nat × String)) (st : Stats) (g : Graph)
    (addr : Nat) (rest : List Nat) :
    analyzeLoop names st g none (addr :: rest) =
      analyzeLoop names st (((g.getOrCreate names addr).addCur addr st).addCum addr st)
        (some addr) rest := by
  simp [analyzeLoop]

/-! ### Conservation of exclusive cost -/

theorem analyzeLoop_some_inv (names : List (Nat × String)) (st : Stats) :
    ∀ (rest : List Nat) (g : Graph) (l : Nat), GInv g →
      GInv (analyzeLoop names st g (some l) rest) ∧
        (analyzeLoop names st g (some l) rest).sumCur = g.sumCur := by
  intro rest
  induction rest with
  | nil => exact fun g l hg => ⟨hg, rfl⟩
  | cons addr rest ih =>
    intro g l hg
    by_cases h : l = addr
    · rw [analyzeLoop_cons_skip names st g l addr rest h]
      exact ih g l hg
    · rw [analyzeLoop_cons_edge names st g l addr rest h]
      have hg3 : GInv (((g.getOrCreate names addr).addEdge (addr, l) st.inuseBytes).addCum
          addr st) :=
        ginv_addCum _ _ (ginv_addEdge _ _ (ginv_getOrCreate names addr hg))
      have hsum : (((g.getOrCreate names addr).addEdge (addr, l) st.inuseBytes).addCum
          addr st).sumCur = g.sumCur := by
        rw [sumCur_addCum, sumCur_addEdge, sumCur_getOrCreate names g addr hg]
      obtain ⟨h1, h2⟩ := ih _ addr hg3
      exact ⟨h1, by rw [h2, hsum]⟩

theorem analyzeLoop_none_inv (names : List (Nat × String)) (st : Stats) (g : Graph)
    (s : List Nat) (hs : s ≠ []) (hg : GInv g) :
    GInv (analyzeLoop names st g none s) ∧
      (analyzeLoop names st g none s).sumCur = g.sumCur.add st := by
  cases s with
  | nil => exact absurd rfl hs
  | cons addr rest =>
    rw [analyzeLoop_cons_first names st g addr rest]
    have hg1 : GInv (g.getOrCreate names addr) := ginv_getOrCreate names addr hg
    have hg3 : GInv (((g.getOrCreate names addr).addCur addr st).addCum addr st) :=
      ginv_addCum _ _ (ginv_addCur _ _ hg1)
    have hsum : (((g.getOrCreate names addr).addCur addr st).addCum addr st).sumCur =
        g.sumCur.add st := by
      rw [sumCur_addCum, sumCur_addCur _ addr st hg1 (getOrCreate_isSome names addr),
        sumCur_getOrCreate names g addr hg]
    obtain ⟨h1, h2⟩ := analyzeLoop_some_inv names st rest _ addr hg3
    exact ⟨h1, by rw [h2, hsum]⟩

theorem analyzeStacks_inv (names : List (Nat × String)) :
    ∀ (ss : List Stack) (g : Graph), GInv g → (∀ s ∈ ss, s.stack ≠ []) →
      GInv (analyzeStacks names ss g) ∧
        (analyzeStacks names ss g).sumCur = g.sumCur.add (stacksTotal ss) := by
  intro ss
  induction ss with
  | nil =>
    intro g hg _
    exact ⟨hg, by simp [analyzeStacks, stacksTotal, sumStats, Stats.add_zero]⟩
  | cons s rest ih =>
    intro g hg hne
    have hs : s.stack ≠ [] := hne s (List.mem_cons_self s rest)
    obtain ⟨h1, h2⟩ := analyzeLoop_none_inv names s.stats g s.stack hs hg
    obtain ⟨h3, h4⟩ := ih (analyzeLoop names s.stats g none s.stack) h1
      (fun t ht => hne t (List.mem_cons_of_mem s ht))
    refine ⟨h3, ?_⟩
    rw [show analyzeStacks names (s :: rest) g =
        analyzeStacks names rest (analyzeLoop names s.stats g none s.stack) from rfl]
    rw [h4, h2]
    rw [show stacksTotal (s :: rest) = s.stats.add (stacksTotal rest) from rfl]
    rw [Stats.add_assoc]

/-! ### Exclusive cost never exceeds inclusive cost -/

theorem getOrCreate_nodesF_self_none (names : List (Nat × String)) {g : Graph} {addr : Nat}
    (h : g.nodesF addr = none) :
    (g.getOrCreate names addr).nodesF addr =
      some ⟨addr, (alookup addr names).getD "", Stats.zero, Stats.zero⟩ := by
  rw [getOrCreate_of_none names h]
  simp

theorem curLeCum_getOrCreate (names : List (Nat × String)) (g : Graph) (addr : Nat)
    (h : CurLeCum g) : CurLeCum (g.getOrCreate names addr) := by
  intro b n hb
  by_cases hba : b = addr
  · subst hba
    cases hm : g.nodesF b with
    | some m =>
      rw [getOrCreate_of_some names hm] at hb
      exact h b n hb
    | none =>
      rw [getOrCreate_nodesF_self_none names hm] at hb
      cases hb
      exact ⟨Nat.le_refl _, Nat.le_refl _⟩
  · rw [getOrCreate_nodesF_ne names hba] at hb
    exact h b n hb

theorem curLeCum_addCur_addCum (g : Graph) (addr : Nat) (st : Stats) (h : CurLeCum g) :
    CurLeCum ((g.addCur addr st).addCum addr st) := by
  intro b n hb
  rw [addCum_nodesF] at hb
  by_cases hba : b = addr
  · rw [if_pos hba, addCur_nodesF, if_pos rfl] at hb
    cases hm : g.nodesF addr with
    | none => rw [hm] at hb; cases hb
    | some m =>
      rw [hm] at hb
      cases hb
      obtain ⟨h1, h2⟩ := h addr m hm
      exact ⟨Nat.add_le_add_right h1 _, Nat.add_le_add_right h2 _⟩
  · rw [if_neg hba, addCur_nodesF, if_neg hba] at hb
    exact h b n hb

theorem curLeCum_addEdge_addCum (g : Graph) (e : Nat × Nat) (w : Nat) (addr : Nat) (st : Stats)
    (h : CurLeCum g) : CurLeCum ((g.addEdge e w).addCum addr st) := by
  intro b n hb
  rw [addCum_nodesF] at hb
  rw [show (g.addEdge e w).nodesF = g.nodesF from rfl] at hb
  by_cases hba : b = addr
  · rw [if_pos hba] at hb
    cases hm : g.nodesF addr with
    | none => rw [hm] at hb; cases hb
    | some m =>
      rw [hm] at hb
      cases hb
      obtain ⟨h1, h2⟩ := h addr m hm
      exact ⟨Nat.le_trans h1 (Nat.le_add_right _ _), Nat.le_trans h2 (Nat.le_add_right _ _)⟩
  · rw [if_neg hba] at hb
    exact h b n hb

theorem curLeCum_loop (names : List (Nat × String)) (st : Stats) :
    ∀ (l : List Nat) (g : Graph) (last : Option Nat), CurLeCum g →
      CurLeCum (analyzeLoop names st g last l) := by
  intro l
  induction l with
  | nil => exact fun g last h => h
  | cons addr rest ih =>
    intro g last h
    cases last with
    | none =>
      rw [analyzeLoop_cons_first]
      exact ih _ _ (curLeCum_addCur_addCum _ addr st (curLeCum_getOrCreate names g addr h))
    | some l0 =>
      by_cases he : l0 = addr
      · rw [analyzeLoop_cons_skip names st g l0 addr rest he]
        exact ih _ _ h
      · rw [analyzeLoop_cons_edge names st g l0 addr rest he]
        exact ih _ _ (curLeCum_addEdge_addCum _ _ _ addr st (curLeCum_getOrCreate names g addr h))

theorem curLeCum_stacks (names : List (Nat × String)) :
    ∀ (ss : List Stack) (g : Graph), CurLeCum g → CurLeCum (analyzeStacks names ss g) := by
  intro ss
  induction ss with
  | nil => exact fun g h => h
  | cons s rest ih =>
    intro g h
    exact ih _ (curLeCum_loop names s.stats s.stack g none h)

/-- C2 (amended): for every input, every node of the graph built by `Analyze`
satisfies `cur ≤ cum` in every `Stats` field; and provided every stack has a
nonempty address list, the sum of the exclusive costs over all nodes equals
the total cost of the input stacks. (The claim as stated fails only for
stacks with an empty address list, whose cost is attributed to no node; see
the counterexample.) -/
theorem c2_amended (stks : List Stack) (names : List (Nat × String)) :
    (∀ a n, (Graph.empty.analyze stks names).nodesF a = some n →
      n.cur.inuseBytes ≤ n.cum.inuseBytes ∧ n.cur.inuseObjects ≤ n.cum.inuseObjects) ∧
    ((∀ s ∈ stks, s.stack ≠ []) →
      (Graph.empty.analyze stks names).sumCur = stacksTotal stks) := by
  have hg : GInv Graph.empty := ⟨fun a => by simp [Graph.empty], List.nodup_nil⟩
  constructor
  · have h := curLeCum_stacks names stks Graph.empty
      (fun a n ha => by simp [Graph.empty] at ha)
    exact fun a n ha => h a n ha
  · intro hne
    have h := (analyzeStacks_inv names stks Graph.empty hg hne).2
    show (analyzeStacks names stks Graph.empty).sumCur = stacksTotal stks
    rw [h, show Graph.empty.sumCur = Stats.zero from rfl, Stats.zero_add]

/-- Witness for C2 (amended) on the scenario stacks: all stacks are nonempty
and the exclusive costs sum to the total input cost, 160 bytes. -/
theorem c2_amended_witness :
    (∀ s ∈ scenarioStacks, s.stack ≠ []) ∧
      scenarioGraph.sumCur = stacksTotal scenarioStacks ∧
      stacksTotal scenarioStacks = ⟨160, 0⟩ := by
  refine ⟨by decide, (c2_amended scenarioStacks []).2 (by decide), rfl⟩

/-! ### Inclusive cost counts occurrences after adjacent-duplicate collapse -/

theorem cumStatsAt_getOrCreate (names : List (Nat × String)) (g : Graph) (addr b : Nat) :
    cumStatsAt (g.getOrCreate names addr) b = cumStatsAt g b := by
  by_cases hba : b = addr
  · subst hba
    cases hm : g.nodesF b with
    | some m => rw [getOrCreate_of_some names hm]
    | none =>
      unfold cumStatsAt
      rw [getOrCreate_nodesF_self_none names hm, hm]
  · unfold cumStatsAt
    rw [getOrCreate_nodesF_ne names hba]

theorem cumStatsAt_addCur (g : Graph) (addr : Nat) (st : Stats) (b : Nat) :
    cumStatsAt (g.addCur addr st) b = cumStatsAt g b := by
  unfold cumStatsAt
  rw [addCur_nodesF]
  by_cases hb : b = addr
  · subst hb
    rw [if_pos rfl]
    cases g.nodesF b <;> rfl
  · rw [if_neg hb]

theorem cumStatsAt_addEdge (g : Graph) (e : Nat × Nat) (w : Nat) (b : Nat) :
    cumStatsAt (g.addEdge e w) b = cumStatsAt g b := rfl

theorem cumStatsAt_addCum_self (g : Graph) (addr : Nat) (st : Stats)
    (h : (g.nodesF addr).isSome) :
    cumStatsAt (g.addCum addr st) addr = (cumStatsAt g addr).add st := by
  unfold cumStatsAt
  rw [addCum_nodesF, if_pos rfl]
  obtain ⟨n, hn⟩ := Option.isSome_iff_exists.mp h
  rw [hn]
  rfl

theorem cumStatsAt_addCum_ne (g : Graph) (addr : Nat) (st : Stats) (b : Nat) (hb : b ≠ addr) :
    cumStatsAt (g.addCum addr st) b = cumStatsAt g b := by
  unfold cumStatsAt
  rw [addCum_nodesF, if_neg hb]

theorem addCur_isSome (g : Graph) (addr : Nat) (st : Stats) (b : Nat) :
    ((g.addCur addr st).nodesF b).isSome = (g.nodesF b).isSome := by
  rw [addCur_nodesF]
  by_cases hb : b = addr
  · subst hb
    rw [if_pos rfl]
    cases g.nodesF b <;> rfl
  · rw [if_neg hb]

theorem cumStatsAt_step_first (names : List (Nat × String)) (g : Graph) (addr : Nat)
    (st : Stats) (x : Nat) :
    cumStatsAt (((g.getOrCreate names addr).addCur addr st).addCum addr st) x =
      if x = addr then (cumStatsAt g x).add st else cumStatsAt g x := by
  by_cases hx : x = addr
  · subst hx
    rw [if_pos rfl]
    rw [cumStatsAt_addCum_self _ x st
      (by rw [addCur_isSome]; exact getOrCreate_isSome names x)]
    rw [cumStatsAt_addCur, cumStatsAt_getOrCreate]
  · rw [if_neg hx]
    rw [cumStatsAt_addCum_ne _ addr st x hx, cumStatsAt_addCur,
      cumStatsAt_getOrCreate names g addr x]

theorem cumStatsAt_step_edge (names : List (Nat × String)) (g : Graph) (l0 addr : Nat)
    (w : Nat) (st : Stats) (x : Nat) :
    cumStatsAt (((g.getOrCreate names addr).addEdge (addr, l0) w).addCum addr st) x =
      if x = addr then (cumStatsAt g x).add st else cumStatsAt g x := by
  by_cases hx : x = addr
  · subst hx
    rw [if_pos rfl]
    rw [cumStatsAt_addCum_self _ x st
      (by rw [show ((g.getOrCreate names x).addEdge (x, l0) w).nodesF =
          (g.getOrCreate names x).nodesF from rfl]; exact getOrCreate_isSome names x)]
    rw [cumStatsAt_addEdge, cumStatsAt_getOrCreate]
  · rw [if_neg hx]
    rw [cumStatsAt_addCum_ne _ addr st x hx, cumStatsAt_addEdge,
      cumStatsAt_getOrCreate names g addr x]

theorem analyzeLoop_cum (names : List (Nat × String)) (st : Stats) :
    ∀ (l : List Nat) (g : Graph) (last : Option Nat) (x : Nat),
      cumStatsAt (analyzeLoop names st g last l) x =
        (cumStatsAt g x).add (Stats.nsmul ((collapseFrom last l).count x) st) := by
  intro l
  induction l with
  | nil =>
    intro g last x
    rw [analyzeLoop_nil]
    simp [collapseFrom, Stats.nsmul_zero, Stats.add_zero]
  | cons addr rest ih =>
    intro g last x
    by_cases h : last = some addr
    · rw [show collapseFrom last (addr :: rest) = collapseFrom last rest from by
        simp [collapseFrom, h]]
      obtain rfl := h
      rw [analyzeLoop_cons_skip names st g addr addr rest rfl]
      exact ih g (some addr) x
    · rw [show collapseFrom last (addr :: rest) = addr :: collapseFrom (some addr) rest from by
        simp [collapseFrom, h]]
      have hstep : ∀ g3 : Graph,
          (cumStatsAt g3 x = if x = addr then (cumStatsAt g x).add st else cumStatsAt g x) →
          cumStatsAt (analyzeLoop names st g3 (some addr) rest) x =
            (cumStatsAt g x).add
              (Stats.nsmul ((addr :: collapseFrom (some addr) rest).count x) st) := by
        intro g3 hg3
        rw [ih g3 (some addr) x, hg3]
        by_cases hx : x = addr
        · subst hx
          rw [if_pos rfl]
          rw [List.count_cons_self]
          rw [Stats.nsmul_succ, Stats.add_assoc, Stats.add_comm st]
        · rw [if_neg hx]
          rw [List.count_cons_of_ne (fun hxa => hx hxa) _]
      cases last with
      | none =>
        rw [analyzeLoop_cons_first names st g addr rest]
        exact hstep _ (cumStatsAt_step_first names g addr st x)
      | some l0 =>
        have hl0 : l0 ≠ addr := fun hl => h (by rw [hl])
        rw [analyzeLoop_cons_edge names st g l0 addr rest hl0]
        exact hstep _ (cumStatsAt_step_edge names g l0 addr st.inuseBytes st x)

theorem analyzeStacks_cum (names : List (Nat × String)) :
    ∀ (ss : List Stack) (g : Graph) (x : Nat),
      cumStatsAt (analyzeStacks names ss g) x = (cumStatsAt g x).add (stacksCumFor x ss) := by
  intro ss
  induction ss with
  | nil =>
    intro g x
    rw [show analyzeStacks names [] g = g from rfl,
      show stacksCumFor x [] = Stats.zero from rfl, Stats.add_zero]
  | cons s rest ih =>
    intro g x
    rw [show analyzeStacks names (s :: rest) g =
        analyzeStacks names rest (analyzeLoop names s.stats g none s.stack) from rfl]
    rw [ih, analyzeLoop_cum names s.stats s.stack g none x]
    rw [show stacksCumFor x (s :: rest) =
        (Stats.nsmul ((collapseFrom none s.stack).count x) s.stats).add (stacksCumFor x rest)
      from rfl]
    rw [Stats.add_assoc]

/-- C5 (amended): for every input, the inclusive cost stored for an address
`x` equals the sum over the stacks of the stack's cost multiplied by the
number of occurrences of `x` in the stack after adjacent-duplicate collapse:
`Analyze` adds a stack's cost to a node's `cum` once per surviving
occurrence, not once per stack. (The claim as stated fails for a stack
containing the same node at two non-adjacent positions; see the
counterexample.) -/
theorem c5_amended (stks : List Stack) (names : List (Nat × String)) (x : Nat) :
    cumStatsAt (Graph.empty.analyze stks names) x = stacksCumFor x stks := by
  show cumStatsAt (analyzeStacks names stks Graph.empty) x = stacksCumFor x stks
  rw [analyzeStacks_cum names stks Graph.empty x]
  rw [show cumStatsAt Graph.empty x = Stats.zero from rfl, Stats.zero_add]

/-! ### Threshold selection: the sorted-list index characterized by counting -/

theorem analyzeLoop_ginv (names : List (Nat × String)) (st : Stats) :
    ∀ (l : List Nat) (g : Graph) (last : Option Nat), GInv g →
      GInv (analyzeLoop names st g last l) := by
  intro l
  induction l with
  | nil => exact fun g last h => h
  | cons addr rest ih =>
    intro g last h
    cases last with
    | none =>
      rw [analyzeLoop_cons_first]
      exact ih _ _ (ginv_addCum _ _ (ginv_addCur _ _ (ginv_getOrCreate names addr h)))
    | some l0 =>
      by_cases he : l0 = addr
      · rw [analyzeLoop_cons_skip names st g l0 addr rest he]
        exact ih _ _ h
      · rw [analyzeLoop_cons_edge names st g l0 addr rest he]
        exact ih _ _ (ginv_addCum _ _ (ginv_addEdge _ _ (ginv_getOrCreate names addr h)))

theorem analyzeStacks_ginv (names : List (Nat × String)) :
    ∀ (ss : List Stack) (g : Graph), GInv g → GInv (analyzeStacks names ss g) := by
  intro ss
  induction ss with
  | nil => exact fun g h => h
  | cons s rest ih =>
    intro g h
    exact ih _ (analyzeLoop_ginv names s.stats s.stack g none h)

/-- In a descending-sorted list of sizes, having at most `K` entries strictly
above `x` is the same as `x` reaching the entry at index `K` (or the list
being shorter than `K + 1`, in which case the default 0 is reached). -/
theorem countP_le_iff_getD_le :
    ∀ (L : List Nat), List.Sorted (fun a b => b ≤ a) L → ∀ (x K : Nat),
      (L.countP (fun m => decide (x < m)) ≤ K ↔ L.getD K 0 ≤ x) := by
  intro L
  induction L with
  | nil =>
    intro _ x K
    rw [List.countP_nil]
    simp [List.getD]
  | cons a L ih =>
    intro hs x K
    have hL : List.Sorted (fun a b => b ≤ a) L := hs.of_cons
    by_cases hxa : x < a
    · rw [List.countP_cons_of_pos _ _ (by simpa using hxa)]
      cases K with
      | zero =>
        rw [List.getD_cons_zero]
        constructor
        · intro h; omega
        · intro h; omega
      | succ K =>
        rw [List.getD_cons_succ, Nat.succ_le_succ_iff]
        exact ih hL x K
    · have hall : ∀ m ∈ a :: L, ¬ x < m := by
        intro m hm
        rcases List.mem_cons.mp hm with rfl | hm
        · exact hxa
        · have hma : m ≤ a := List.rel_of_sorted_cons hs m hm
          omega
      have hcount : (a :: L).countP (fun m => decide (x < m)) = 0 := by
        rw [List.countP_eq_zero]
        intro m hm
        simpa using hall m hm
      rw [hcount]
      constructor
      · intro _
        rcases Nat.lt_or_ge K (a :: L).length with hK | hK
        · rw [List.getD_eq_getElem _ _ hK]
          have hmem : (a :: L)[K] ∈ a :: L := List.getElem_mem hK
          have := hall _ hmem
          omega
        · rw [List.getD_eq_default _ _ hK]
          exact Nat.zero_le x
      · intro _
        exact Nat.zero_le _

theorem filterMap_map_cum (g : Graph) :
    ∀ ks : List Nat, (∀ a ∈ ks, (g.nodesF a).isSome) →
      (ks.filterMap g.nodesF).map (fun n => n.cum.inuseBytes) = ks.map (cumBytesAt g) := by
  intro ks
  induction ks with
  | nil => intro _; rfl
  | cons a ks ih =>
    intro h
    obtain ⟨n, hn⟩ := Option.isSome_iff_exists.mp (h a (List.mem_cons_self a ks))
    rw [List.filterMap_cons, hn]
    simp only [List.map_cons]
    rw [ih (fun b hb => h b (List.mem_cons_of_mem a hb))]
    rw [show cumBytesAt g a = n.cum.inuseBytes from by unfold cumBytesAt; rw [hn]]

/-- The descending size list of a built graph is sorted descending and is a
permutation of the positive cumulative sizes of the node table. -/
theorem nodeSizes_sorted_perm (g2 : Graph) :
    List.Sorted (fun a b => b ≤ a)
      ((List.insertionSort (fun a b => a ≤ b)
        ((g2.nodeKeys.map (cumBytesAt g2)).filter (fun s => decide (0 < s)))).reverse) ∧
    ((List.insertionSort (fun a b => a ≤ b)
        ((g2.nodeKeys.map (cumBytesAt g2)).filter (fun s => decide (0 < s)))).reverse).Perm
      ((g2.nodeKeys.map (cumBytesAt g2)).filter (fun s => decide (0 < s))) := by
  constructor
  · exact List.pairwise_reverse.mpr
      (List.sorted_insertionSort (fun a b => a ≤ b) _)
  · exact (List.reverse_perm _).trans (List.perm_insertionSort (fun a b => a ≤ b) _)

/-- C3 (amended): a node is kept by `GraphViz` node selection exactly when at
most `NodeKeepCount` nodes have strictly larger cumulative size — top-K
selection with K = NodeKeepCount + 1, ties included. Equivalently, the
threshold is the entry at 0-based index `NodeKeepCount` of the descending
size list (the (NodeKeepCount+1)-th largest positive size), or 0 when the
list has at most `NodeKeepCount` entries, in which case every node passes. -/
theorem c3_amended (stks : List Stack) (names : List (Nat × String)) (keep : Nat) (n : Node) :
    n ∈ gvKept (Graph.empty.analyze stks names) keep ↔
      n ∈ (Graph.empty.analyze stks names).allNodes ∧
        (Graph.empty.analyze stks names).allNodes.countP
          (fun m => decide (n.cum.inuseBytes < m.cum.inuseBytes)) ≤ keep := by
  have hginv : GInv (Graph.empty.analyze stks names) := by
    show GInv (analyzeStacks names stks Graph.empty)
    exact analyzeStacks_ginv names stks Graph.empty
      ⟨fun a => by simp [Graph.empty], List.nodup_nil⟩
  have hsizes : (Graph.empty.analyze stks names).nodeSizes =
      (List.insertionSort (fun a b => a ≤ b)
        (((Graph.empty.analyze stks names).nodeKeys.map
          (cumBytesAt (Graph.empty.analyze stks names))).filter
            (fun s => decide (0 < s)))).reverse := rfl
  obtain ⟨hsorted, hperm⟩ := nodeSizes_sorted_perm (Graph.empty.analyze stks names)
  rw [gvKept, List.mem_filter, decide_eq_true_iff]
  refine and_congr_right fun _ => ?_
  rw [gvThreshold]
  rw [← countP_le_iff_getD_le _ (by rw [hsizes]; exact hsorted) n.cum.inuseBytes keep]
  rw [show ((Graph.empty.analyze stks names).nodeSizes.countP
      (fun m => decide (n.cum.inuseBytes < m))) =
      ((((Graph.empty.analyze stks names).nodeKeys.map
        (cumBytesAt (Graph.empty.analyze stks names))).filter
          (fun s => decide (0 < s))).countP (fun m => decide (n.cum.inuseBytes < m)))
    from by rw [hsizes]; exact (hperm.countP_eq _)]
  rw [List.countP_filter]
  rw [show (fun a => decide (n.cum.inuseBytes < a) && decide (0 < a)) =
      (fun a => decide (n.cum.inuseBytes < a)) from by
    funext a
    by_cases ha : n.cum.inuseBytes < a
    · have h0 : 0 < a := by omega
      simp [ha, h0]
    · simp [ha]]
  rw [← filterMap_map_cum _ _ (fun a ha => (hginv.1 a).mpr ha)]
  rw [List.countP_map]
  rfl

/-- Witness for C3 (amended): on the scenario graph with `NodeKeepCount = 1`,
node B (cumulative size 150) is kept because only one node (A, size 160) is
strictly larger. -/
theorem c3_amended_witness :
    (⟨2, "", ⟨0, 0⟩, ⟨150, 0⟩⟩ : Node) ∈ gvKept scenarioGraph 1 :=
  (c3_amended scenarioStacks [] 1 ⟨2, "", ⟨0, 0⟩, ⟨150, 0⟩⟩).mpr ⟨by decide, by decide⟩

/-! ### Rendering: degree counters match the emitted edge list -/

theorem gvEmitEdges_degrees (g : Graph) :
    ∀ (es : List (Nat × Nat)) (st : EmitState),
      (∀ a, st.indeg a = st.emitted.countP (fun e => decide (e.2 = a))) →
      (∀ a, st.outdeg a = st.emitted.countP (fun e => decide (e.1 = a))) →
      (∀ a, (gvEmitEdges g es st).indeg a =
          (gvEmitEdges g es st).emitted.countP (fun e => decide (e.2 = a))) ∧
      (∀ a, (gvEmitEdges g es st).outdeg a =
          (gvEmitEdges g es st).emitted.countP (fun e => decide (e.1 = a))) := by
  intro es
  induction es with
  | nil => exact fun st h1 h2 => ⟨h1, h2⟩
  | cons e rest ih =>
    intro st h1 h2
    rw [gvEmitEdges]
    split
    · apply ih
      · intro a
        show (if a = e.2 then st.indeg a + 1 else st.indeg a) =
          (st.emitted ++ [e]).countP (fun e2 => decide (e2.2 = a))
        rw [List.countP_append, List.countP_cons, List.countP_nil, ← h1 a]
        by_cases ha : a = e.2
        · rw [if_pos ha]
          have : decide (e.2 = a) = true := by subst ha; simp
          rw [this]
          simp
        · rw [if_neg ha]
          have : decide (e.2 = a) = false := by
            simpa using fun h => ha h.symm
          rw [this]
          simp
      · intro a
        show (if a = e.1 then st.outdeg a + 1 else st.outdeg a) =
          (st.emitted ++ [e]).countP (fun e2 => decide (e2.1 = a))
        rw [List.countP_append, List.countP_cons, List.countP_nil, ← h2 a]
        by_cases ha : a = e.1
        · rw [if_pos ha]
          have : decide (e.1 = a) = true := by subst ha; simp
          rw [this]
          simp
        · rw [if_neg ha]
          have : decide (e.1 = a) = false := by
            simpa using fun h => ha h.symm
          rw [this]
          simp
    · exact ih st h1 h2

theorem gvEmitNodes_mem (st : EmitState) :
    ∀ (ns : List Node) (nd : Node), nd ∈ (gvEmitNodes st ns).1 →
      nd ∈ ns ∧ ¬(st.indeg nd.addr = 0 ∧ st.outdeg nd.addr = 0) := by
  intro ns
  induction ns with
  | nil => intro nd h; cases h
  | cons n rest ih =>
    intro nd h
    rw [gvEmitNodes] at h
    split at h
    · obtain ⟨h1, h2⟩ := ih nd h
      exact ⟨List.mem_cons_of_mem n h1, h2⟩
    case isFalse hcond =>
      rcases List.mem_cons.mp h with rfl | hmem
      · exact ⟨List.mem_cons_self nd rest, hcond⟩
      · obtain ⟨h1, h2⟩ := ih nd hmem
        exact ⟨List.mem_cons_of_mem n h1, h2⟩

theorem gvEmitNodes_missing (st : EmitState) :
    ∀ (ns : List Node),
      (gvEmitNodes st ns).2.2 =
        ((ns.filter (fun nd =>
            decide (st.indeg nd.addr = 0) && decide (st.outdeg nd.addr = 0))).map
          (fun nd => nd.cum.inuseBytes)).sum := by
  intro ns
  induction ns with
  | nil => rfl
  | cons n rest ih =>
    rw [gvEmitNodes, List.filter_cons]
    split
    case isTrue hcond =>
      rw [if_pos (by simpa using hcond)]
      simp only [List.map_cons, List.sum_cons]
      rw [ih]
      omega
    case isFalse hcond =>
      rw [if_neg (by simpa using hcond)]
      exact ih

theorem countP_or_eq_zero (p q : Nat × Nat → Bool) (l : List (Nat × Nat)) :
    l.countP (fun e => p e || q e) = 0 ↔ l.countP p = 0 ∧ l.countP q = 0 := by
  simp only [List.countP_eq_zero, Bool.or_eq_true, not_or]
  constructor
  · intro h
    exact ⟨fun a ha => (h a ha).1, fun a ha => (h a ha).2⟩
  · intro h a ha
    exact ⟨h.1 a ha, h.2 a ha⟩

/-- C9: in every rendered output, every node for which a node statement is
emitted has at least one emitted edge incident to it, and the reported
"not shown" total is exactly the sum of the cumulative sizes of the
threshold-kept nodes with no incident emitted edge (which are omitted from
the output). -/
theorem c9_pruning_connectivity (g : Graph) (keep : Nat) :
    (∀ nd ∈ (gvRender g keep).2.1,
      1 ≤ (gvRender g keep).1.emitted.countP
        (fun e => decide (e.1 = nd.addr) || decide (e.2 = nd.addr))) ∧
    (gvRender g keep).2.2.2 =
      (((gvKept g keep).filter (fun nd =>
          decide ((gvRender g keep).1.emitted.countP
            (fun e => decide (e.1 = nd.addr) || decide (e.2 = nd.addr)) = 0))).map
        (fun nd => nd.cum.inuseBytes)).sum := by
  have hN : (gvRender g keep).2 = gvEmitNodes ((gvRender g keep).1) (gvKept g keep) := rfl
  have hE : (gvRender g keep).1 =
      gvEmitEdges g (gvSortedEdges g keep) ⟨[], fun _ => 0, fun _ => 0⟩ := rfl
  obtain ⟨hin, hout⟩ := gvEmitEdges_degrees g (gvSortedEdges g keep)
    ⟨[], fun _ => 0, fun _ => 0⟩ (fun a => rfl) (fun a => rfl)
  rw [hN, hE]
  constructor
  · intro nd hnd
    obtain ⟨-, hcond⟩ := gvEmitNodes_mem _ _ nd hnd
    rw [hin nd.addr, hout nd.addr] at hcond
    by_cases h1 : (gvEmitEdges g (gvSortedEdges g keep)
        ⟨[], fun _ => 0, fun _ => 0⟩).emitted.countP (fun e => decide (e.2 = nd.addr)) = 0
    · have h2 := fun h => hcond ⟨h1, h⟩
      have hle : (gvEmitEdges g (gvSortedEdges g keep)
            ⟨[], fun _ => 0, fun _ => 0⟩).emitted.countP (fun e => decide (e.1 = nd.addr)) ≤
          (gvEmitEdges g (gvSortedEdges g keep)
            ⟨[], fun _ => 0, fun _ => 0⟩).emitted.countP
            (fun e => decide (e.1 = nd.addr) || decide (e.2 = nd.addr)) :=
        List.countP_mono_left (fun e _ he => by simp [he])
      omega
    · have hle : (gvEmitEdges g (gvSortedEdges g keep)
            ⟨[], fun _ => 0, fun _ => 0⟩).emitted.countP (fun e => decide (e.2 = nd.addr)) ≤
          (gvEmitEdges g (gvSortedEdges g keep)
            ⟨[], fun _ => 0, fun _ => 0⟩).emitted.countP
            (fun e => decide (e.1 = nd.addr) || decide (e.2 = nd.addr)) :=
        List.countP_mono_left (fun e _ he => by simp [he])
      omega
  · rw [gvEmitNodes_missing]
    congr 1
    apply congrArg
    apply List.filter_congr
    intro nd _
    rw [hin nd.addr, hout nd.addr]
    rw [show (decide ((gvEmitEdges g (gvSortedEdges g keep)
          ⟨[], fun _ => 0, fun _ => 0⟩).emitted.countP (fun e => decide (e.2 = nd.addr)) = 0) &&
        decide ((gvEmitEdges g (gvSortedEdges g keep)
          ⟨[], fun _ => 0, fun _ => 0⟩).emitted.countP (fun e => decide (e.1 = nd.addr)) = 0)) =
        decide ((gvEmitEdges g (gvSortedEdges g keep)
            ⟨[], fun _ => 0, fun _ => 0⟩).emitted.countP (fun e => decide (e.2 = nd.addr)) = 0 ∧
          (gvEmitEdges g (gvSortedEdges g keep)
            ⟨[], fun _ => 0, fun _ => 0⟩).emitted.countP (fun e => decide (e.1 = nd.addr)) = 0)
      from (Bool.decide_and _ _).symm]
    apply decide_eq_decide.mpr
    rw [← countP_or_eq_zero]
    constructor
    · intro h
      rw [show (fun e : Nat × Nat => decide (e.1 = nd.addr) || decide (e.2 = nd.addr)) =
          (fun e : Nat × Nat => decide (e.2 = nd.addr) || decide (e.1 = nd.addr)) from by
        funext e; exact Bool.or_comm _ _]
      exact h
    · intro h
      rw [show (fun e : Nat × Nat => decide (e.2 = nd.addr) || decide (e.1 = nd.addr)) =
          (fun e : Nat × Nat => decide (e.1 = nd.addr) || decide (e.2 = nd.addr)) from by
        funext e; exact Bool.or_comm _ _]
      exact h

/-- Witness for C9 on the scenario graph rendered with the default keep count
100: node A is emitted and has an incident emitted edge, and the "not shown"
total is 10 (node C is kept by threshold but its only edge, of weight 10 KiB
< 30 KiB with A already reachable, is dropped). -/
theorem c9_witness :
    (⟨1, "", ⟨160, 0⟩, ⟨160, 0⟩⟩ : Node) ∈ (gvRender scenarioGraph 100).2.1 ∧
    1 ≤ (gvRender scenarioGraph 100).1.emitted.countP
      (fun e => decide (e.1 = 1) || decide (e.2 = 1)) ∧
    (gvRender scenarioGraph 100).2.2.2 = 10 := by
  refine ⟨by decide, ?_, by decide⟩
  exact (c9_pruning_connectivity scenarioGraph 100).1 ⟨1, "", ⟨160, 0⟩, ⟨160, 0⟩⟩ (by decide)

/-! ### Association-list basics -/

theorem alookup_cons_self {α β : Type} [DecidableEq α] (k : α) (v : β) (l : List (α × β)) :
    alookup k ((k, v) :: l) = some v := by
  simp [alookup]

theorem alookup_cons_ne {α β : Type} [DecidableEq α] {k k2 : α} (v : β) (l : List (α × β))
    (h : k ≠ k2) : alookup k ((k2, v) :: l) = alookup k l := by
  simp [alookup, h]

theorem alookup_mem {α β : Type} [DecidableEq α] {k : α} {v : β} :
    ∀ {l : List (α × β)}, alookup k l = some v → (k, v) ∈ l := by
  intro l
  induction l with
  | nil => intro h; cases h
  | cons e l ih =>
    obtain ⟨k2, v2⟩ := e
    intro h
    rw [show alookup k ((k2, v2) :: l) = if k = k2 then some v2 else alookup k l from rfl] at h
    split at h
    case isTrue he =>
      cases h
      subst he
      exact List.mem_cons_self _ _
    case isFalse he =>
      exact List.mem_cons_of_mem _ (ih h)

theorem alookup_isSome_of_mem {α β : Type} [DecidableEq α] {k : α} {v : β} :
    ∀ {l : List (α × β)}, (k, v) ∈ l → (alookup k l).isSome := by
  intro l
  induction l with
  | nil => intro h; cases h
  | cons e l ih =>
    intro h
    rw [show alookup k (e :: l) = if k = e.1 then some e.2 else alookup k l from by
      cases e; rfl]
    split
    · rfl
    case isFalse he =>
      rcases List.mem_cons.mp h with rfl | hm
      · exact absurd rfl he
      · exact ih hm

/-- In a `CGood` state the `names` entries are function-like: membership
determines the lookup. -/
theorem mem_alookup_names {syms : Nat → Option String} {st : CState} (hg : CGood syms st)
    {k : Nat} {v : String} (hm : (k, v) ∈ st.names) : alookup k st.names = some v := by
  obtain ⟨v2, hv2⟩ := Option.isSome_iff_exists.mp (alookup_isSome_of_mem hm)
  have h2 : (k, v2) ∈ st.names := alookup_mem hv2
  have e1 := hg.namesRes k v hm
  have e2 := hg.namesRes k v2 h2
  rw [e1] at e2
  cases e2
  exact hv2

/-! ### `canonAddr`: basic properties -/

theorem canonAddr_unresolved {syms : Nat → Option String} {st : CState} {a : Nat}
    (h : syms a = none) : canonAddr syms st a = (a, st) := by
  simp [canonAddr, h]

theorem canonAddr_known {syms : Nat → Option String} {st : CState} {a : Nat} {n : String}
    {na : Nat} (h : syms a = some n) (hl : alookup n st.addrs = some na) :
    canonAddr syms st a = (na, { st with names := (na, n) :: st.names }) := by
  simp [canonAddr, h, hl]

theorem canonAddr_new {syms : Nat → Option String} {st : CState} {a : Nat} {n : String}
    (h : syms a = some n) (hl : alookup n st.addrs = none) :
    canonAddr syms st a =
      (a, ⟨(n, a) :: st.addrs, (a, n) :: st.names⟩) := by
  simp [canonAddr, h, hl]

theorem canonAddr_addrsLe (syms : Nat → Option String) (st : CState) (a : Nat) :
    AddrsLe st (canonAddr syms st a).2 := by
  intro m b hm
  cases h : syms a with
  | none => rw [canonAddr_unresolved h]; exact hm
  | some n =>
    cases hl : alookup n st.addrs with
    | some na => rw [canonAddr_known h hl]; exact hm
    | none =>
      rw [canonAddr_new h hl]
      show alookup m ((n, a) :: st.addrs) = some b
      by_cases hmn : m = n
      · subst hmn
        rw [hm] at hl
        cases hl
      · rw [alookup_cons_ne _ _ hmn]
        exact hm

theorem canonAddr_namesLe (syms : Nat → Option String) (st : CState) (a : Nat) :
    NamesLe st (canonAddr syms st a).2 := by
  intro k v hm
  cases h : syms a with
  | none => rw [canonAddr_unresolved h]; exact hm
  | some n =>
    cases hl : alookup n st.addrs with
    | some na =>
      rw [canonAddr_known h hl]
      exact List.mem_cons_of_mem _ hm
    | none =>
      rw [canonAddr_new h hl]
      exact List.mem_cons_of_mem _ hm

theorem canonAddr_good {syms : Nat → Option String} {st : CState} (a : Nat)
    (hg : CGood syms st) : CGood syms (canonAddr syms st a).2 := by
  cases h : syms a with
  | none => rw [canonAddr_unresolved h]; exact hg
  | some n =>
    cases hl : alookup n st.addrs with
    | some na =>
      rw [canonAddr_known h hl]
      refine ⟨hg.addrsRes, ?_, ?_⟩
      · intro k v hm
        rcases List.mem_cons.mp hm with he | hm2
        · cases he
          exact hg.addrsRes n na hl
        · exact hg.namesRes k v hm2
      · intro k v hm
        rcases List.mem_cons.mp hm with he | hm2
        · cases he
          exact hl
        · exact hg.namesCanon k v hm2
    | none =>
      rw [canonAddr_new h hl]
      refine ⟨?_, ?_, ?_⟩
      · intro m b hm
        show syms b = some m
        by_cases hmn : m = n
        · subst hmn
          rw [alookup_cons_self] at hm
          cases hm
          exact h
        · rw [show alookup m ((n, a) :: st.addrs) = alookup m st.addrs from
            alookup_cons_ne _ _ hmn] at hm
          exact hg.addrsRes m b hm
      · intro k v hm
        rcases List.mem_cons.mp hm with he | hm2
        · cases he
          exact h
        · exact hg.namesRes k v hm2
      · intro k v hm
        show alookup v ((n, a) :: st.addrs) = some k
        rcases List.mem_cons.mp hm with he | hm2
        · cases he
          exact alookup_cons_self _ _ _
        · have hold := hg.namesCanon k v hm2
          by_cases hvn : v = n
          · subst hvn
            rw [hold] at hl
            cases hl
          · rw [alookup_cons_ne _ _ hvn]
            exact hold

theorem canonAddr_resolves {syms : Nat → Option String} {st : CState} {a : Nat} {n : String}
    (h : syms a = some n) (hg : CGood syms st) :
    syms (canonAddr syms st a).1 = some n := by
  cases hl : alookup n st.addrs with
  | some na =>
    rw [canonAddr_known h hl]
    exact hg.addrsRes n na hl
  | none =>
    rw [canonAddr_new h hl]
    exact h

theorem canonAddr_registers {syms : Nat → Option String} {st : CState} {a : Nat} {n : String}
    (h : syms a = some n) :
    alookup n (canonAddr syms st a).2.addrs = some (canonAddr syms st a).1 := by
  cases hl : alookup n st.addrs with
  | some na => rw [canonAddr_known h hl]; exact hl
  | none =>
    rw [canonAddr_new h hl]
    exact alookup_cons_self _ _ _

theorem canonAddr_entry {syms : Nat → Option String} {st : CState} {a : Nat} {n : String}
    (h : syms a = some n) :
    ((canonAddr syms st a).1, n) ∈ (canonAddr syms st a).2.names := by
  cases hl : alookup n st.addrs with
  | some na =>
    rw [canonAddr_known h hl]
    exact List.mem_cons_self _ _
  | none =>
    rw [canonAddr_new h hl]
    exact List.mem_cons_self _ _

theorem canonAddr_names_from {syms : Nat → Option String} {st : CState} {a : Nat}
    {k : Nat} {v : String} (hm : (k, v) ∈ (canonAddr syms st a).2.names) :
    (k, v) ∈ st.names ∨ syms a = some v := by
  cases h : syms a with
  | none =>
    rw [canonAddr_unresolved h] at hm
    exact Or.inl hm
  | some n =>
    cases hl : alookup n st.addrs with
    | some na =>
      rw [canonAddr_known h hl] at hm
      rcases List.mem_cons.mp hm with he | hm2
      · rw [Prod.mk.injEq] at he
        rw [he.2]
        exact Or.inr rfl
      · exact Or.inl hm2
    | none =>
      rw [canonAddr_new h hl] at hm
      rcases List.mem_cons.mp hm with he | hm2
      · rw [Prod.mk.injEq] at he
        rw [he.2]
        exact Or.inr rfl
      · exact Or.inl hm2

/-! ### `cleanLoop`: unfolding and invariants -/

theorem cleanLoop_nil (syms : Nat → Option String) (st : CState) (last : Nat) :
    cleanLoop syms st last [] = ([], st) := rfl

theorem cleanLoop_cons_skip {syms : Nat → Option String} {st : CState} {last a : Nat}
    {rest : List Nat} (h : (canonAddr syms st a).1 = last) :
    cleanLoop syms st last (a :: rest) = cleanLoop syms (canonAddr syms st a).2 last rest := by
  simp [cleanLoop, h]

theorem cleanLoop_cons_keep {syms : Nat → Option String} {st : CState} {last a : Nat}
    {rest : List Nat} (h : (canonAddr syms st a).1 ≠ last) :
    cleanLoop syms st last (a :: rest) =
      ((canonAddr syms st a).1 ::
          (cleanLoop syms (canonAddr syms st a).2 (canonAddr syms st a).1 rest).1,
        (cleanLoop syms (canonAddr syms st a).2 (canonAddr syms st a).1 rest).2) := by
  simp [cleanLoop, h]

theorem cleanLoop_good (syms : Nat → Option String) :
    ∀ (l : List Nat) (st : CState) (last : Nat), CGood syms st →
      CGood syms (cleanLoop syms st last l).2 := by
  intro l
  induction l with
  | nil => exact fun st last h => h
  | cons a rest ih =>
    intro st last h
    by_cases hc : (canonAddr syms st a).1 = last
    · rw [cleanLoop_cons_skip hc]
      exact ih _ _ (canonAddr_good a h)
    · rw [cleanLoop_cons_keep hc]
      exact ih _ _ (canonAddr_good a h)

theorem cleanLoop_addrsLe (syms : Nat → Option String) :
    ∀ (l : List Nat) (st : CState) (last : Nat), AddrsLe st (cleanLoop syms st last l).2 := by
  intro l
  induction l with
  | nil => exact fun st last n b h => h
  | cons a rest ih =>
    intro st last
    by_cases hc : (canonAddr syms st a).1 = last
    · rw [cleanLoop_cons_skip hc]
      exact fun n b h => ih _ _ n b (canonAddr_addrsLe syms st a n b h)
    · rw [cleanLoop_cons_keep hc]
      exact fun n b h => ih _ _ n b (canonAddr_addrsLe syms st a n b h)

theorem cleanLoop_namesLe (syms : Nat → Option String) :
    ∀ (l : List Nat) (st : CState) (last : Nat), NamesLe st (cleanLoop syms st last l).2 := by
  intro l
  induction l with
  | nil => exact fun st last k v h => h
  | cons a rest ih =>
    intro st last
    by_cases hc : (canonAddr syms st a).1 = last
    · rw [cleanLoop_cons_skip hc]
      exact fun k v h => ih _ _ k v (canonAddr_namesLe syms st a k v h)
    · rw [cleanLoop_cons_keep hc]
      exact fun k v h => ih _ _ k v (canonAddr_namesLe syms st a k v h)

theorem cleanLoop_chain (syms : Nat → Option String) :
    ∀ (l : List Nat) (st : CState) (last : Nat),
      List.Chain' Ne (last :: (cleanLoop syms st last l).1) := by
  intro l
  induction l with
  | nil =>
    intro st last
    rw [cleanLoop_nil]
    exact List.chain'_singleton last
  | cons a rest ih =>
    intro st last
    by_cases hc : (canonAddr syms st a).1 = last
    · rw [cleanLoop_cons_skip hc]
      exact ih _ _
    · rw [cleanLoop_cons_keep hc]
      show List.Chain' Ne (last :: (canonAddr syms st a).1 ::
        (cleanLoop syms (canonAddr syms st a).2 (canonAddr syms st a).1 rest).1)
      rw [List.chain'_cons]
      exact ⟨fun he => hc he.symm, ih _ _⟩

theorem canonAddr_self_canon {syms : Nat → Option String} {st : CState} {a : Nat} {n : String}
    (hg : CGood syms st) (hn : syms (canonAddr syms st a).1 = some n) :
    alookup n (canonAddr syms st a).2.addrs = some (canonAddr syms st a).1 := by
  cases hsym : syms a with
  | none =>
    have hp1 : (canonAddr syms st a).1 = a := by rw [canonAddr_unresolved hsym]
    rw [hp1, hsym] at hn
    cases hn
  | some m =>
    have h1 := canonAddr_resolves hsym hg
    rw [hn] at h1
    cases h1
    exact canonAddr_registers hsym

theorem canonAddr_self_entry {syms : Nat → Option String} {st : CState} {a : Nat} {n : String}
    (hg : CGood syms st) (hn : syms (canonAddr syms st a).1 = some n) :
    ((canonAddr syms st a).1, n) ∈ (canonAddr syms st a).2.names := by
  cases hsym : syms a with
  | none =>
    have hp1 : (canonAddr syms st a).1 = a := by rw [canonAddr_unresolved hsym]
    rw [hp1, hsym] at hn
    cases hn
  | some m =>
    have h1 := canonAddr_resolves hsym hg
    rw [hn] at h1
    cases h1
    exact canonAddr_entry hsym

theorem cleanLoop_canon (syms : Nat → Option String) :
    ∀ (l : List Nat) (st : CState) (last : Nat), CGood syms st →
      ∀ b ∈ (cleanLoop syms st last l).1, ∀ n, syms b = some n →
        alookup n (cleanLoop syms st last l).2.addrs = some b := by
  intro l
  induction l with
  | nil =>
    intro st last _ b hb
    rw [cleanLoop_nil] at hb
    cases hb
  | cons a rest ih =>
    intro st last hg b hb n hn
    by_cases hc : (canonAddr syms st a).1 = last
    · rw [cleanLoop_cons_skip hc] at hb ⊢
      exact ih _ _ (canonAddr_good a hg) b hb n hn
    · rw [cleanLoop_cons_keep hc] at hb ⊢
      rcases List.mem_cons.mp hb with rfl | hm
      · exact cleanLoop_addrsLe syms rest _ _ n _ (canonAddr_self_canon hg hn)
      · exact ih _ _ (canonAddr_good a hg) b hm n hn

theorem cleanLoop_out_names (syms : Nat → Option String) :
    ∀ (l : List Nat) (st : CState) (last : Nat), CGood syms st →
      ∀ b ∈ (cleanLoop syms st last l).1, ∀ n, syms b = some n →
        (b, n) ∈ (cleanLoop syms st last l).2.names := by
  intro l
  induction l with
  | nil =>
    intro st last _ b hb
    rw [cleanLoop_nil] at hb
    cases hb
  | cons a rest ih =>
    intro st last hg b hb n hn
    by_cases hc : (canonAddr syms st a).1 = last
    · rw [cleanLoop_cons_skip hc] at hb ⊢
      exact ih _ _ (canonAddr_good a hg) b hb n hn
    · rw [cleanLoop_cons_keep hc] at hb ⊢
      rcases List.mem_cons.mp hb with rfl | hm
      · exact cleanLoop_namesLe syms rest _ _ _ n (canonAddr_self_entry hg hn)
      · exact ih _ _ (canonAddr_good a hg) b hm n hn

theorem cleanLoop_entry (syms : Nat → Option String) :
    ∀ (l : List Nat) (st : CState) (last : Nat) (c : Nat) (n : String),
      c ∈ l → syms c = some n →
      ∃ k, (k, n) ∈ (cleanLoop syms st last l).2.names := by
  intro l
  induction l with
  | nil =>
    intro st last c n hc
    cases hc
  | cons a rest ih =>
    intro st last c n hc hcn
    by_cases hk : (canonAddr syms st a).1 = last
    · rw [cleanLoop_cons_skip hk]
      rcases List.mem_cons.mp hc with rfl | hm
      · exact ⟨(canonAddr syms st c).1,
          cleanLoop_namesLe syms rest _ _ _ n (canonAddr_entry hcn)⟩
      · exact ih _ _ c n hm hcn
    · rw [cleanLoop_cons_keep hk]
      rcases List.mem_cons.mp hc with rfl | hm
      · exact ⟨(canonAddr syms st c).1,
          cleanLoop_namesLe syms rest _ _ _ n (canonAddr_entry hcn)⟩
      · exact ih _ _ c n hm hcn

theorem cleanLoop_registered (syms : Nat → Option String) :
    ∀ (l : List Nat) (st : CState) (last : Nat) (c : Nat) (n : String),
      c ∈ l → syms c = some n →
      (alookup n (cleanLoop syms st last l).2.addrs).isSome := by
  intro l
  induction l with
  | nil =>
    intro st last c n hc
    cases hc
  | cons a rest ih =>
    intro st last c n hc hcn
    by_cases hk : (canonAddr syms st a).1 = last
    · rw [cleanLoop_cons_skip hk]
      rcases List.mem_cons.mp hc with rfl | hm
      · rw [cleanLoop_addrsLe syms rest _ _ n _ (canonAddr_registers hcn)]
        rfl
      · exact ih _ _ c n hm hcn
    · rw [cleanLoop_cons_keep hk]
      rcases List.mem_cons.mp hc with rfl | hm
      · rw [cleanLoop_addrsLe syms rest _ _ n _ (canonAddr_registers hcn)]
        rfl
      · exact ih _ _ c n hm hcn

theorem cleanLoop_names_from (syms : Nat → Option String) :
    ∀ (l : List Nat) (st : CState) (last : Nat) (k : Nat) (v : String),
      (k, v) ∈ (cleanLoop syms st last l).2.names →
      (k, v) ∈ st.names ∨ ∃ a ∈ l, syms a = some v := by
  intro l
  induction l with
  | nil =>
    intro st last k v h
    rw [cleanLoop_nil] at h
    exact Or.inl h
  | cons a rest ih =>
    intro st last k v h
    by_cases hk : (canonAddr syms st a).1 = last
    · rw [cleanLoop_cons_skip hk] at h
      rcases ih _ _ k v h with h2 | ⟨c, hc, hcv⟩
      · rcases canonAddr_names_from h2 with h3 | h3
        · exact Or.inl h3
        · exact Or.inr ⟨a, List.mem_cons_self a rest, h3⟩
      · exact Or.inr ⟨c, List.mem_cons_of_mem a hc, hcv⟩
    · rw [cleanLoop_cons_keep hk] at h
      rcases ih _ _ k v h with h2 | ⟨c, hc, hcv⟩
      · rcases canonAddr_names_from h2 with h3 | h3
        · exact Or.inl h3
        · exact Or.inr ⟨a, List.mem_cons_self a rest, h3⟩
      · exact Or.inr ⟨c, List.mem_cons_of_mem a hc, hcv⟩

theorem canonAddr_ident {syms : Nat → Option String} {A : List (String × Nat)} {st : CState}
    {a : Nat}
    (hsub : ∀ n b, alookup n st.addrs = some b → alookup n A = some b)
    (hgc : ∀ n, syms a = some n → alookup n A = some a) :
    (canonAddr syms st a).1 = a ∧
      (∀ n b, alookup n (canonAddr syms st a).2.addrs = some b → alookup n A = some b) := by
  cases h : syms a with
  | none =>
    rw [canonAddr_unresolved h]
    exact ⟨rfl, hsub⟩
  | some n =>
    have hA : alookup n A = some a := hgc n h
    cases hl : alookup n st.addrs with
    | some b =>
      have hb := hsub n b hl
      rw [hA] at hb
      have hba : b = a := (Option.some.inj hb).symm
      subst hba
      rw [canonAddr_known h hl]
      exact ⟨rfl, hsub⟩
    | none =>
      rw [canonAddr_new h hl]
      refine ⟨rfl, ?_⟩
      intro m b hmb
      by_cases hmn : m = n
      · subst hmn
        rw [show alookup m ((m, a) :: st.addrs) = some a from alookup_cons_self _ _ _] at hmb
        cases hmb
        exact hA
      · rw [show alookup m ((n, a) :: st.addrs) = alookup m st.addrs from
          alookup_cons_ne _ _ hmn] at hmb
        exact hsub m b hmb

theorem cleanLoop_ident (syms : Nat → Option String) (A : List (String × Nat)) :
    ∀ (l : List Nat) (st : CState) (last : Nat),
      (∀ n b, alookup n st.addrs = some b → alookup n A = some b) →
      (∀ b ∈ l, ∀ n, syms b = some n → alookup n A = some b) →
      List.Chain' Ne (last :: l) →
      (cleanLoop syms st last l).1 = l ∧
        (∀ n b, alookup n (cleanLoop syms st last l).2.addrs = some b →
          alookup n A = some b) := by
  intro l
  induction l with
  | nil =>
    intro st last hsub _ _
    exact ⟨rfl, hsub⟩
  | cons a rest ih =>
    intro st last hsub hgc hch
    obtain ⟨hp1, hsub2⟩ := canonAddr_ident hsub
      (fun n hn => hgc a (List.mem_cons_self a rest) n hn)
    have hne : (canonAddr syms st a).1 ≠ last := by
      rw [hp1]
      exact fun he => (List.chain'_cons.mp hch).1 he.symm
    rw [cleanLoop_cons_keep hne]
    obtain ⟨h1, h2⟩ := ih (canonAddr syms st a).2 (canonAddr syms st a).1 hsub2
      (fun b hb n hn => hgc b (List.mem_cons_of_mem a hb) n hn)
      (by rw [hp1]; exact (List.chain'_cons.mp hch).2)
    constructor
    · show (canonAddr syms st a).1 ::
        (cleanLoop syms (canonAddr syms st a).2 (canonAddr syms st a).1 rest).1 = a :: rest
      rw [hp1] at h1 ⊢
      rw [h1]
    · exact h2

theorem cleanLoop_survive (syms : Nat → Option String) :
    ∀ (l : List Nat) (st : CState) (last : Nat) (n : String), CGood syms st →
      (∃ a ∈ l, syms a = some n) →
      ∃ b, syms b = some n ∧ (b ∈ (cleanLoop syms st last l).1 ∨ b = last) := by
  intro l
  induction l with
  | nil =>
    intro st last n _ h
    obtain ⟨a, ha, _⟩ := h
    cases ha
  | cons a rest ih =>
    intro st last n hg h
    obtain ⟨c, hc, hcn⟩ := h
    by_cases hk : (canonAddr syms st a).1 = last
    · rw [cleanLoop_cons_skip hk]
      rcases List.mem_cons.mp hc with rfl | hm
      · refine ⟨last, ?_, Or.inr rfl⟩
        rw [← hk]
        exact canonAddr_resolves hcn hg
      · exact ih _ _ n (canonAddr_good a hg) ⟨c, hm, hcn⟩
    · rw [cleanLoop_cons_keep hk]
      rcases List.mem_cons.mp hc with rfl | hm
      · exact ⟨(canonAddr syms st c).1, canonAddr_resolves hcn hg,
          Or.inl (List.mem_cons_self _ _)⟩
      · obtain ⟨b, hbn, hbl⟩ := ih _ _ n (canonAddr_good a hg) ⟨c, hm, hcn⟩
        rcases hbl with hin | rfl
        · exact ⟨b, hbn, Or.inl (List.mem_cons_of_mem _ hin)⟩
        · exact ⟨(canonAddr syms st a).1, hbn, Or.inl (List.mem_cons_self _ _)⟩

/-! ### `cleanupGo`: lifting the per-stack facts over all stacks -/

theorem cleanupGo_nil (syms : Nat → Option String) (st : CState) :
    cleanupGo syms st [] = ([], st) := rfl

theorem cleanupGo_cons (syms : Nat → Option String) (st : CState) (s : Stack)
    (rest : List Stack) :
    cleanupGo syms st (s :: rest) =
      ({ s with stack := (cleanLoop syms st 0 s.stack).1 } ::
          (cleanupGo syms (cleanLoop syms st 0 s.stack).2 rest).1,
        (cleanupGo syms (cleanLoop syms st 0 s.stack).2 rest).2) := by
  simp [cleanupGo]

theorem cleanupGo_good (syms : Nat → Option String) :
    ∀ (ss : List Stack) (st : CState), CGood syms st →
      CGood syms (cleanupGo syms st ss).2 := by
  intro ss
  induction ss with
  | nil => exact fun st h => h
  | cons s rest ih =>
    intro st h
    rw [cleanupGo_cons]
    exact ih _ (cleanLoop_good syms s.stack st 0 h)

theorem cleanupGo_addrsLe (syms : Nat → Option String) :
    ∀ (ss : List Stack) (st : CState), AddrsLe st (cleanupGo syms st ss).2 := by
  intro ss
  induction ss with
  | nil => exact fun st n b h => h
  | cons s rest ih =>
    intro st n b h
    rw [cleanupGo_cons]
    exact ih _ n b (cleanLoop_addrsLe syms s.stack st 0 n b h)

theorem cleanupGo_namesLe (syms : Nat → Option String) :
    ∀ (ss : List Stack) (st : CState), NamesLe st (cleanupGo syms st ss).2 := by
  intro ss
  induction ss with
  | nil => exact fun st k v h => h
  | cons s rest ih =>
    intro st k v h
    rw [cleanupGo_cons]
    exact ih _ k v (cleanLoop_namesLe syms s.stack st 0 k v h)

theorem cleanupGo_chain (syms : Nat → Option String) :
    ∀ (ss : List Stack) (st : CState),
      ∀ s2 ∈ (cleanupGo syms st ss).1, List.Chain' Ne (0 :: s2.stack) := by
  intro ss
  induction ss with
  | nil =>
    intro st s2 hs2
    rw [cleanupGo_nil] at hs2
    cases hs2
  | cons s rest ih =>
    intro st s2 hs2
    rw [cleanupGo_cons] at hs2
    rcases List.mem_cons.mp hs2 with rfl | hm
    · exact cleanLoop_chain syms s.stack st 0
    · exact ih _ s2 hm

theorem cleanupGo_canon (syms : Nat → Option String) :
    ∀ (ss : List Stack) (st : CState), CGood syms st →
      ∀ s2 ∈ (cleanupGo syms st ss).1, ∀ b ∈ s2.stack, ∀ n, syms b = some n →
        alookup n (cleanupGo syms st ss).2.addrs = some b := by
  intro ss
  induction ss with
  | nil =>
    intro st _ s2 hs2
    rw [cleanupGo_nil] at hs2
    cases hs2
  | cons s rest ih =>
    intro st hg s2 hs2 b hb n hn
    rw [cleanupGo_cons] at hs2 ⊢
    rcases List.mem_cons.mp hs2 with rfl | hm
    · exact cleanupGo_addrsLe syms rest _ n b
        (cleanLoop_canon syms s.stack st 0 hg b hb n hn)
    · exact ih _ (cleanLoop_good syms s.stack st 0 hg) s2 hm b hb n hn

theorem cleanupGo_out_names (syms : Nat → Option String) :
    ∀ (ss : List Stack) (st : CState), CGood syms st →
      ∀ s2 ∈ (cleanupGo syms st ss).1, ∀ b ∈ s2.stack, ∀ n, syms b = some n →
        (b, n) ∈ (cleanupGo syms st ss).2.names := by
  intro ss
  induction ss with
  | nil =>
    intro st _ s2 hs2
    rw [cleanupGo_nil] at hs2
    cases hs2
  | cons s rest ih =>
    intro st hg s2 hs2 b hb n hn
    rw [cleanupGo_cons] at hs2 ⊢
    rcases List.mem_cons.mp hs2 with rfl | hm
    · exact cleanupGo_namesLe syms rest _ b n
        (cleanLoop_out_names syms s.stack st 0 hg b hb n hn)
    · exact ih _ (cleanLoop_good syms s.stack st 0 hg) s2 hm b hb n hn

theorem cleanupGo_entry (syms : Nat → Option String) :
    ∀ (ss : List Stack) (st : CState) (s : Stack) (c : Nat) (n : String),
      s ∈ ss → c ∈ s.stack → syms c = some n →
      ∃ k, (k, n) ∈ (cleanupGo syms st ss).2.names := by
  intro ss
  induction ss with
  | nil =>
    intro st s c n hs
    cases hs
  | cons s0 rest ih =>
    intro st s c n hs hc hcn
    rw [cleanupGo_cons]
    rcases List.mem_cons.mp hs with rfl | hm
    · obtain ⟨k, hk⟩ := cleanLoop_entry syms s.stack st 0 c n hc hcn
      exact ⟨k, cleanupGo_namesLe syms rest _ k n hk⟩
    · exact ih _ s c n hm hc hcn

theorem cleanupGo_registered (syms : Nat → Option String) :
    ∀ (ss : List Stack) (st : CState) (s : Stack) (c : Nat) (n : String),
      s ∈ ss → c ∈ s.stack → syms c = some n →
      (alookup n (cleanupGo syms st ss).2.addrs).isSome := by
  intro ss
  induction ss with
  | nil =>
    intro st s c n hs
    cases hs
  | cons s0 rest ih =>
    intro st s c n hs hc hcn
    rw [cleanupGo_cons]
    rcases List.mem_cons.mp hs with rfl | hm
    · obtain ⟨b, hb⟩ := Option.isSome_iff_exists.mp
        (cleanLoop_registered syms s.stack st 0 c n hc hcn)
      rw [cleanupGo_addrsLe syms rest _ n b hb]
      rfl
    · exact ih _ s c n hm hc hcn

theorem cleanupGo_names_from (syms : Nat → Option String) :
    ∀ (ss : List Stack) (st : CState) (k : Nat) (v : String),
      (k, v) ∈ (cleanupGo syms st ss).2.names →
      (k, v) ∈ st.names ∨ ∃ s ∈ ss, ∃ a ∈ s.stack, syms a = some v := by
  intro ss
  induction ss with
  | nil =>
    intro st k v h
    rw [cleanupGo_nil] at h
    exact Or.inl h
  | cons s rest ih =>
    intro st k v h
    rw [cleanupGo_cons] at h
    rcases ih _ k v h with h2 | ⟨s2, hs2, c, hc, hcv⟩
    · rcases cleanLoop_names_from syms s.stack st 0 k v h2 with h3 | ⟨a, ha, hav⟩
      · exact Or.inl h3
      · exact Or.inr ⟨s, List.mem_cons_self s rest, a, ha, hav⟩
    · exact Or.inr ⟨s2, List.mem_cons_of_mem s hs2, c, hc, hcv⟩

theorem cleanupGo_survive (syms : Nat → Option String) :
    ∀ (ss : List Stack) (st : CState) (n : String), CGood syms st →
      syms 0 ≠ some n →
      (∃ s ∈ ss, ∃ a ∈ s.stack, syms a = some n) →
      ∃ s2 ∈ (cleanupGo syms st ss).1, ∃ b ∈ s2.stack, syms b = some n := by
  intro ss
  induction ss with
  | nil =>
    intro st n _ _ h
    obtain ⟨s, hs, -⟩ := h
    cases hs
  | cons s rest ih =>
    intro st n hg h0 h
    obtain ⟨s0, hs0, c, hc, hcn⟩ := h
    rw [cleanupGo_cons]
    rcases List.mem_cons.mp hs0 with rfl | hm
    · obtain ⟨b, hbn, hbl⟩ := cleanLoop_survive syms s0.stack st 0 n hg ⟨c, hc, hcn⟩
      rcases hbl with hin | rfl
      · exact ⟨{ s0 with stack := (cleanLoop syms st 0 s0.stack).1 },
          List.mem_cons_self _ _, b, hin, hbn⟩
      · exact absurd hbn h0
    · obtain ⟨s2, hs2, b, hb, hbn⟩ :=
        ih _ n (cleanLoop_good syms s.stack st 0 hg) h0 ⟨s0, hm, c, hc, hcn⟩
      exact ⟨s2, List.mem_cons_of_mem _ hs2, b, hb, hbn⟩

theorem cleanupGo_ident (syms : Nat → Option String) (A : List (String × Nat)) :
    ∀ (ss : List Stack) (st : CState),
      (∀ n b, alookup n st.addrs = some b → alookup n A = some b) →
      (∀ s ∈ ss, ∀ b ∈ s.stack, ∀ n, syms b = some n → alookup n A = some b) →
      (∀ s ∈ ss, List.Chain' Ne (0 :: s.stack)) →
      (cleanupGo syms st ss).1 = ss ∧
        (∀ n b, alookup n (cleanupGo syms st ss).2.addrs = some b →
          alookup n A = some b) := by
  intro ss
  induction ss with
  | nil =>
    intro st hsub _ _
    exact ⟨rfl, hsub⟩
  | cons s rest ih =>
    intro st hsub hgc hch
    obtain ⟨h1, hsub2⟩ := cleanLoop_ident syms A s.stack st 0 hsub
      (hgc s (List.mem_cons_self s rest)) (hch s (List.mem_cons_self s rest))
    rw [cleanupGo_cons]
    obtain ⟨h3, h4⟩ := ih _ hsub2
      (fun t ht => hgc t (List.mem_cons_of_mem s ht))
      (fun t ht => hch t (List.mem_cons_of_mem s ht))
    constructor
    · show { s with stack := (cleanLoop syms st 0 s.stack).1 } ::
        (cleanupGo syms (cleanLoop syms st 0 s.stack).2 rest).1 = s :: rest
      rw [h1, h3]
    · exact h4

/-! ### C7: idempotence of canonicalization -/

theorem cgood_empty (syms : Nat → Option String) : CGood syms ⟨[], []⟩ := by
  refine ⟨?_, ?_, ?_⟩
  · intro n a h
    cases h
  · intro k v h
    cases h
  · intro k v h
    cases h

/-- C7 (amended): running `CleanupStacks` a second time on the output of a
first run leaves every stack unchanged; and provided the resolver does not
resolve address 0, the second run also returns the same address-to-name
mapping. (Without that proviso the mapping may differ: an all-zero stack is
deleted entirely by the duplicate tracker, so a name whose only occurrences
were at address 0 is absent from the second mapping; see the
counterexample.) -/
theorem c7_amended (syms : Nat → Option String) (stks : List Stack) :
    (CleanupStacks syms ((CleanupStacks syms stks).1)).1 = (CleanupStacks syms stks).1 ∧
      (syms 0 = none →
        ∀ a, alookup a (CleanupStacks syms ((CleanupStacks syms stks).1)).2.names =
          alookup a (CleanupStacks syms stks).2.names) := by
  have hg0 : CGood syms (⟨[], []⟩ : CState) := cgood_empty syms
  have hgood1 : CGood syms (CleanupStacks syms stks).2 :=
    cleanupGo_good syms stks ⟨[], []⟩ hg0
  have hchain1 : ∀ s ∈ (CleanupStacks syms stks).1, List.Chain' Ne (0 :: s.stack) :=
    cleanupGo_chain syms stks ⟨[], []⟩
  have hcanon1 : ∀ s ∈ (CleanupStacks syms stks).1, ∀ b ∈ s.stack, ∀ n, syms b = some n →
      alookup n (CleanupStacks syms stks).2.addrs = some b :=
    cleanupGo_canon syms stks ⟨[], []⟩ hg0
  have hsub0 : ∀ (n : String) (b : Nat), alookup n (⟨[], []⟩ : CState).addrs = some b →
      alookup n (CleanupStacks syms stks).2.addrs = some b := by
    intro n b h
    cases h
  obtain ⟨hident, hsub⟩ := cleanupGo_ident syms (CleanupStacks syms stks).2.addrs
    (CleanupStacks syms stks).1 ⟨[], []⟩ hsub0 hcanon1 hchain1
  have hgood2 : CGood syms (CleanupStacks syms ((CleanupStacks syms stks).1)).2 :=
    cleanupGo_good syms _ ⟨[], []⟩ hg0
  refine ⟨hident, ?_⟩
  intro h0 a
  have hX : ∀ v, alookup a (CleanupStacks syms ((CleanupStacks syms stks).1)).2.names = some v →
      alookup a (CleanupStacks syms stks).2.names = some v := by
    intro v hv
    have hmem := alookup_mem hv
    rcases cleanupGo_names_from syms _ ⟨[], []⟩ a v hmem with h2 | ⟨s2, hs2, c, hc, hcv⟩
    · cases h2
    · have hcn1 : (c, v) ∈ (CleanupStacks syms stks).2.names :=
        cleanupGo_out_names syms stks ⟨[], []⟩ hg0 s2 hs2 c hc v hcv
      have h3 := hgood2.namesCanon a v hmem
      have h4 := hsub v a h3
      have h5 := hcanon1 s2 hs2 c hc v hcv
      rw [h4] at h5
      cases h5
      exact mem_alookup_names hgood1 hcn1
  have hY : ∀ v, alookup a (CleanupStacks syms stks).2.names = some v →
      alookup a (CleanupStacks syms ((CleanupStacks syms stks).1)).2.names = some v := by
    intro v hv
    have hmem := alookup_mem hv
    have hca := hgood1.namesCanon a v hmem
    rcases cleanupGo_names_from syms stks ⟨[], []⟩ a v hmem with h2 | ⟨s0, hs0, c, hc, hcv⟩
    · cases h2
    · obtain ⟨s2, hs2, b, hb, hbv⟩ := cleanupGo_survive syms stks ⟨[], []⟩ v hg0
        (by rw [h0]; exact fun he => Option.noConfusion he) ⟨s0, hs0, c, hc, hcv⟩
      obtain ⟨k, hk⟩ := cleanupGo_entry syms _ ⟨[], []⟩ s2 b v hs2 hb hbv
      have h3 := hgood2.namesCanon k v hk
      have h4 := hsub v k h3
      rw [hca] at h4
      cases h4
      exact mem_alookup_names hgood2 hk
  cases o2 : alookup a (CleanupStacks syms ((CleanupStacks syms stks).1)).2.names with
  | some v => rw [hX v o2]
  | none =>
    cases o1 : alookup a (CleanupStacks syms stks).2.names with
    | none => rfl
    | some v =>
      rw [hY v o1] at o2
      cases o2

/-- Witness for C7 (amended): with the resolver that maps addresses 4 and 7
to name `g` and nothing else (so address 0 does not resolve), a second run on
the canonicalized witness stacks changes neither the stacks nor the
mapping. -/
theorem c7_amended_witness :
    wsyms 0 = none ∧
    (CleanupStacks wsyms ((CleanupStacks wsyms wstks).1)).1 = (CleanupStacks wsyms wstks).1 ∧
    (∀ a, alookup a (CleanupStacks wsyms ((CleanupStacks wsyms wstks).1)).2.names =
      alookup a (CleanupStacks wsyms wstks).2.names) :=
  ⟨rfl, (c7_amended wsyms wstks).1, (c7_amended wsyms wstks).2 rfl⟩

/-! ### Node-table keys and names after `Analyze` -/

theorem getOrCreate_keys_mem {g : Graph} (names : List (Nat × String)) (addr : Nat)
    (hk : KeysOK g) (b : Nat) :
    b ∈ (g.getOrCreate names addr).nodeKeys ↔ b ∈ g.nodeKeys ∨ b = addr := by
  cases h : g.nodesF addr with
  | some n =>
    rw [getOrCreate_of_some names h]
    constructor
    · exact Or.inl
    · rintro (hm | rfl)
      · exact hm
      · exact (hk b).mp (by rw [h]; rfl)
  | none =>
    rw [getOrCreate_of_none names h]
    simp [List.mem_append]

theorem analyzeLoop_keys (names : List (Nat × String)) (st : Stats) :
    ∀ (l : List Nat) (g : Graph) (last : Option Nat), GInv g →
      (∀ l0, last = some l0 → l0 ∈ g.nodeKeys) →
      ∀ b, (b ∈ (analyzeLoop names st g last l).nodeKeys ↔ b ∈ g.nodeKeys ∨ b ∈ l) := by
  intro l
  induction l with
  | nil =>
    intro g last _ _ b
    rw [analyzeLoop_nil]
    simp
  | cons addr rest ih =>
    intro g last hg hlast b
    cases last with
    | none =>
      rw [analyzeLoop_cons_first]
      have hg1 : GInv (g.getOrCreate names addr) := ginv_getOrCreate names addr hg
      have hg3 : GInv (((g.getOrCreate names addr).addCur addr st).addCum addr st) :=
        ginv_addCum _ _ (ginv_addCur _ _ hg1)
      have haddr : addr ∈
          (((g.getOrCreate names addr).addCur addr st).addCum addr st).nodeKeys := by
        show addr ∈ (g.getOrCreate names addr).nodeKeys
        exact (getOrCreate_keys_mem names addr hg.1 addr).mpr (Or.inr rfl)
      rw [ih _ (some addr) hg3 (fun l0 hl0 => by cases hl0; exact haddr) b]
      have hkeys : b ∈
          (((g.getOrCreate names addr).addCur addr st).addCum addr st).nodeKeys ↔
          b ∈ g.nodeKeys ∨ b = addr := by
        show b ∈ (g.getOrCreate names addr).nodeKeys ↔ _
        exact getOrCreate_keys_mem names addr hg.1 b
      rw [hkeys, List.mem_cons]
      tauto
    | some l0 =>
      by_cases he : l0 = addr
      · rw [analyzeLoop_cons_skip names st g l0 addr rest he]
        rw [ih g (some l0) hg hlast b, List.mem_cons]
        have haddr : addr ∈ g.nodeKeys := he ▸ hlast l0 rfl
        constructor
        · rintro (h | h)
          · exact Or.inl h
          · exact Or.inr (Or.inr h)
        · rintro (h | rfl | h)
          · exact Or.inl h
          · exact Or.inl haddr
          · exact Or.inr h
      · rw [analyzeLoop_cons_edge names st g l0 addr rest he]
        have hg1 : GInv (g.getOrCreate names addr) := ginv_getOrCreate names addr hg
        have hg3 : GInv (((g.getOrCreate names addr).addEdge (addr, l0)
            st.inuseBytes).addCum addr st) := ginv_addCum _ _ (ginv_addEdge _ _ hg1)
        have haddr : addr ∈ (((g.getOrCreate names addr).addEdge (addr, l0)
            st.inuseBytes).addCum addr st).nodeKeys := by
          show addr ∈ (g.getOrCreate names addr).nodeKeys
          exact (getOrCreate_keys_mem names addr hg.1 addr).mpr (Or.inr rfl)
        rw [ih _ (some addr) hg3 (fun l1 hl1 => by cases hl1; exact haddr) b]
        have hkeys : b ∈ (((g.getOrCreate names addr).addEdge (addr, l0)
            st.inuseBytes).addCum addr st).nodeKeys ↔ b ∈ g.nodeKeys ∨ b = addr := by
          show b ∈ (g.getOrCreate names addr).nodeKeys ↔ _
          exact getOrCreate_keys_mem names addr hg.1 b
        rw [hkeys, List.mem_cons]
        tauto

theorem analyzeStacks_keys (names : List (Nat × String)) :
    ∀ (ss : List Stack) (g : Graph), GInv g →
      ∀ b, (b ∈ (analyzeStacks names ss g).nodeKeys ↔
        b ∈ g.nodeKeys ∨ ∃ s ∈ ss, b ∈ s.stack) := by
  intro ss
  induction ss with
  | nil =>
    intro g _ b
    simp [analyzeStacks]
  | cons s rest ih =>
    intro g hg b
    rw [show analyzeStacks names (s :: rest) g =
        analyzeStacks names rest (analyzeLoop names s.stats g none s.stack) from rfl]
    rw [ih _ (analyzeLoop_ginv names s.stats s.stack g none hg) b]
    rw [analyzeLoop_keys names s.stats s.stack g none hg (fun l0 hl0 => by cases hl0) b]
    constructor
    · rintro ((h | h) | ⟨t, ht, hbt⟩)
      · exact Or.inl h
      · exact Or.inr ⟨s, List.mem_cons_self s rest, h⟩
      · exact Or.inr ⟨t, List.mem_cons_of_mem s ht, hbt⟩
    · rintro (h | ⟨t, ht, hbt⟩)
      · exact Or.inl (Or.inl h)
      · rcases List.mem_cons.mp ht with rfl | ht2
        · exact Or.inl (Or.inr hbt)
        · exact Or.inr ⟨t, ht2, hbt⟩

theorem nodeNamesOK_getOrCreate (names : List (Nat × String)) {g : Graph} (addr : Nat)
    (h : NodeNamesOK names g) : NodeNamesOK names (g.getOrCreate names addr) := by
  intro b n hb
  by_cases hba : b = addr
  · subst hba
    cases hm : g.nodesF b with
    | some m =>
      rw [getOrCreate_of_some names hm] at hb
      exact h b n hb
    | none =>
      rw [getOrCreate_nodesF_self_none names hm] at hb
      cases hb
      rfl
  · rw [getOrCreate_nodesF_ne names hba] at hb
    exact h b n hb

theorem nodeNamesOK_addCur (names : List (Nat × String)) {g : Graph} (addr : Nat) (st : Stats)
    (h : NodeNamesOK names g) : NodeNamesOK names (g.addCur addr st) := by
  intro b n hb
  rw [addCur_nodesF] at hb
  by_cases hba : b = addr
  · rw [if_pos hba] at hb
    cases hm : g.nodesF addr with
    | none => rw [hm] at hb; cases hb
    | some m =>
      rw [hm] at hb
      cases hb
      exact hba ▸ h addr m hm
  · rw [if_neg hba] at hb
    exact h b n hb

theorem nodeNamesOK_addCum (names : List (Nat × String)) {g : Graph} (addr : Nat) (st : Stats)
    (h : NodeNamesOK names g) : NodeNamesOK names (g.addCum addr st) := by
  intro b n hb
  rw [addCum_nodesF] at hb
  by_cases hba : b = addr
  · rw [if_pos hba] at hb
    cases hm : g.nodesF addr with
    | none => rw [hm] at hb; cases hb
    | some m =>
      rw [hm] at hb
      cases hb
      exact hba ▸ h addr m hm
  · rw [if_neg hba] at hb
    exact h b n hb

theorem nodeNamesOK_addEdge (names : List (Nat × String)) {g : Graph} (e : Nat × Nat)
    (w : Nat) (h : NodeNamesOK names g) : NodeNamesOK names (g.addEdge e w) := h

theorem nodeNamesOK_loop (names : List (Nat × String)) (st : Stats) :
    ∀ (l : List Nat) (g : Graph) (last : Option Nat), NodeNamesOK names g →
      NodeNamesOK names (analyzeLoop names st g last l) := by
  intro l
  induction l with
  | nil => exact fun g last h => h
  | cons addr rest ih =>
    intro g last h
    cases last with
    | none =>
      rw [analyzeLoop_cons_first]
      exact ih _ _ (nodeNamesOK_addCum names addr st
        (nodeNamesOK_addCur names addr st (nodeNamesOK_getOrCreate names addr h)))
    | some l0 =>
      by_cases he : l0 = addr
      · rw [analyzeLoop_cons_skip names st g l0 addr rest he]
        exact ih _ _ h
      · rw [analyzeLoop_cons_edge names st g l0 addr rest he]
        exact ih _ _ (nodeNamesOK_addCum names addr st
          (nodeNamesOK_addEdge names _ _ (nodeNamesOK_getOrCreate names addr h)))

theorem nodeNamesOK_stacks (names : List (Nat × String)) :
    ∀ (ss : List Stack) (g : Graph), NodeNamesOK names g →
      NodeNamesOK names (analyzeStacks names ss g) := by
  intro ss
  induction ss with
  | nil => exact fun g h => h
  | cons s rest ih =>
    intro g h
    exact ih _ (nodeNamesOK_loop names s.stats s.stack g none h)

theorem countP_eq_one_of (p : Nat → Bool) (rep : Nat) :
    ∀ (l : List Nat), l.Nodup → rep ∈ l → p rep = true →
      (∀ a ∈ l, p a = true → a = rep) → l.countP p = 1 := by
  intro l
  induction l with
  | nil => intro _ hmem; cases hmem
  | cons x xs ih =>
    intro hn hmem hp huniq
    rcases List.mem_cons.mp hmem with rfl | hm
    · rw [List.countP_cons_of_pos _ _ hp]
      have hzero : xs.countP p = 0 := by
        rw [List.countP_eq_zero]
        intro a ha hpa
        have hax := huniq a (List.mem_cons_of_mem _ ha) hpa
        subst hax
        exact absurd ha (List.nodup_cons.mp hn).1
      rw [hzero]
    · have hx : ¬ p x = true := by
        intro hpx
        have hxr := huniq x (List.mem_cons_self _ _) hpx
        subst hxr
        exact absurd hm (List.nodup_cons.mp hn).1
      rw [List.countP_cons, if_neg hx]
      exact ih (List.nodup_cons.mp hn).2 hm hp
        (fun a ha hpa => huniq a (List.mem_cons_of_mem _ ha) hpa)

/-- C6 (amended): for distinct addresses A ≠ B resolving to the same name,
with at least one of them occurring in some stack, and provided address 0
does not resolve to that name (otherwise all occurrences can be deleted by
the zero-initialized duplicate tracker; see the counterexample),
canonicalization has a single registered representative for the name, every
post-canonicalization occurrence of an address resolving to the name equals
that representative, and the graph subsequently built by `Analyze` contains
exactly one node whose address resolves to the name — and that node carries
the name. -/
theorem c6_amended (syms : Nat → Option String) (stks : List Stack) (A B : Nat) (nm : String)
    (hA : syms A = some nm) (hB : syms B = some nm) (hAB : A ≠ B)
    (h0 : syms 0 ≠ some nm)
    (hocc : ∃ s ∈ stks, A ∈ s.stack ∨ B ∈ s.stack) :
    ∃ rep, alookup nm (CleanupStacks syms stks).2.addrs = some rep ∧
      (∀ s2 ∈ (CleanupStacks syms stks).1, ∀ c ∈ s2.stack, syms c = some nm → c = rep) ∧
      (Graph.empty.analyze (CleanupStacks syms stks).1
          (CleanupStacks syms stks).2.names).nodeKeys.countP
        (fun a => decide (syms a = some nm)) = 1 ∧
      ((Graph.empty.analyze (CleanupStacks syms stks).1
          (CleanupStacks syms stks).2.names).nodesF rep).map Node.name = some nm := by
  have hg0 : CGood syms (⟨[], []⟩ : CState) := cgood_empty syms
  have hgood1 : CGood syms (CleanupStacks syms stks).2 :=
    cleanupGo_good syms stks ⟨[], []⟩ hg0
  obtain ⟨s0, hs0, hocc2⟩ := hocc
  have hoccex : ∃ s ∈ stks, ∃ c ∈ s.stack, syms c = some nm := by
    rcases hocc2 with h | h
    · exact ⟨s0, hs0, A, h, hA⟩
    · exact ⟨s0, hs0, B, h, hB⟩
  obtain ⟨s1, hs1, c1, hc1, hc1n⟩ := hoccex
  obtain ⟨rep, hrep⟩ := Option.isSome_iff_exists.mp
    (cleanupGo_registered syms stks ⟨[], []⟩ s1 c1 nm hs1 hc1 hc1n)
  have hrepn : syms rep = some nm := hgood1.addrsRes nm rep hrep
  have hcanon : ∀ s2 ∈ (CleanupStacks syms stks).1, ∀ c ∈ s2.stack,
      syms c = some nm → c = rep := by
    intro s2 hs2 c hc hcn
    have h := cleanupGo_canon syms stks ⟨[], []⟩ hg0 s2 hs2 c hc nm hcn
    rw [hrep] at h
    exact (Option.some.inj h).symm
  obtain ⟨s2, hs2, b, hb, hbn⟩ :=
    cleanupGo_survive syms stks ⟨[], []⟩ nm hg0 h0 ⟨s1, hs1, c1, hc1, hc1n⟩
  have hbrep : b = rep := hcanon s2 hs2 b hb hbn
  rw [hbrep] at hb hbn
  have hginv : GInv (Graph.empty.analyze (CleanupStacks syms stks).1
      (CleanupStacks syms stks).2.names) := by
    show GInv (analyzeStacks (CleanupStacks syms stks).2.names
      (CleanupStacks syms stks).1 Graph.empty)
    exact analyzeStacks_ginv _ _ _ ⟨fun a => by simp [Graph.empty], List.nodup_nil⟩
  have hkeys : ∀ x, x ∈ (Graph.empty.analyze (CleanupStacks syms stks).1
      (CleanupStacks syms stks).2.names).nodeKeys ↔
      (∃ s ∈ (CleanupStacks syms stks).1, x ∈ s.stack) := by
    intro x
    show x ∈ (analyzeStacks (CleanupStacks syms stks).2.names
      (CleanupStacks syms stks).1 Graph.empty).nodeKeys ↔ _
    rw [analyzeStacks_keys _ _ _ ⟨fun a => by simp [Graph.empty], List.nodup_nil⟩ x]
    rw [show (Graph.empty : Graph).nodeKeys = [] from rfl]
    simp
  have hrepkey : rep ∈ (Graph.empty.analyze (CleanupStacks syms stks).1
      (CleanupStacks syms stks).2.names).nodeKeys := (hkeys rep).mpr ⟨s2, hs2, hb⟩
  have hcount : (Graph.empty.analyze (CleanupStacks syms stks).1
      (CleanupStacks syms stks).2.names).nodeKeys.countP
      (fun a => decide (syms a = some nm)) = 1 := by
    refine countP_eq_one_of _ rep _ hginv.2 hrepkey (decide_eq_true_iff.mpr hrepn) ?_
    intro a ha hpa
    obtain ⟨s3, hs3, ha3⟩ := (hkeys a).mp ha
    exact hcanon s3 hs3 a ha3 (of_decide_eq_true hpa)
  have hnames : NodeNamesOK (CleanupStacks syms stks).2.names
      (Graph.empty.analyze (CleanupStacks syms stks).1
        (CleanupStacks syms stks).2.names) := by
    show NodeNamesOK _ (analyzeStacks (CleanupStacks syms stks).2.names
      (CleanupStacks syms stks).1 Graph.empty)
    exact nodeNamesOK_stacks _ _ _ (fun a n h => by simp [Graph.empty] at h)
  obtain ⟨nd, hnd⟩ := Option.isSome_iff_exists.mp ((hginv.1 rep).mpr hrepkey)
  have hlook : alookup rep (CleanupStacks syms stks).2.names = some nm :=
    mem_alookup_names hgood1
      (cleanupGo_out_names syms stks ⟨[], []⟩ hg0 s2 hs2 rep hb nm hbn)
  refine ⟨rep, hrep, hcanon, hcount, ?_⟩
  rw [hnd]
  show some nd.name = some nm
  rw [hnames rep nd hnd, hlook]
  rfl

/-- Witness for C6 (amended): addresses 4 and 7 both resolve to `g`, address
4 occurs in the witness stacks, and address 0 does not resolve to `g`. -/
theorem c6_amended_witness :
    ∃ rep, alookup "g" (CleanupStacks wsyms wstks).2.addrs = some rep ∧
      (∀ s2 ∈ (CleanupStacks wsyms wstks).1, ∀ c ∈ s2.stack,
        wsyms c = some "g" → c = rep) ∧
      (Graph.empty.analyze (CleanupStacks wsyms wstks).1
          (CleanupStacks wsyms wstks).2.names).nodeKeys.countP
        (fun a => decide (wsyms a = some "g")) = 1 ∧
      ((Graph.empty.analyze (CleanupStacks wsyms wstks).1
          (CleanupStacks wsyms wstks).2.names).nodesF rep).map Node.name = some "g" :=
  c6_amended wsyms wstks 4 7 "g" rfl rfl (by decide) (by decide)
    ⟨⟨[4, 9], ⟨5, 0⟩⟩, by decide, Or.inl (by decide)⟩
